import Mathlib

/-!
Verification of the mtl-archives-search metadata normalization engine.

This file shallowly embeds the Python sources
`src/pipelines/etl/normalize_dates.py`, `src/pipelines/etl/clean_metadata.py`,
`src/pipelines/etl/audit_metadata_quality.py` and (for the legacy text
normalizer) `src/data/mtl_archives/clean_metadata.py` into Lean.

Conventions of the embedding:
* Python strings are `List Char` (`PyStr`); `len` is `List.length`, which
  matches Python's code-point semantics.
* `unicodedata.normalize("NFC", ·)` is an external library call; it is
  modelled as an explicit function parameter `nfc : PyStr → PyStr`.  Real NFC
  is the identity on strings whose characters all lie below U+0300 (such
  strings contain no combining marks and no composable Hangul material), so
  concrete evaluations instantiate `nfc := pyId`.
* The optional `langdetect.detect` capability is modelled as a parameter
  `detect : Option (PyStr → Option PyStr)`; `none` means the library is
  unavailable, and an inner `none` models a `LangDetectException`.
* `json.loads` in the streaming drivers is likewise an external decoder,
  modelled as a parameter `decode : PyStr → Except PyStr RawRecord`.
* Regular expressions are hand-compiled to deterministic scanners that
  implement the Python `re` semantics (leftmost match, lazy/greedy
  quantifiers, IGNORECASE/DOTALL flags) of the concrete patterns appearing in
  the sources.  `\d`/`\w` classes are modelled over ASCII; the corpus and all
  claims only exercise ASCII digits.
-/

set_option maxRecDepth 100000

/-- Python strings, as lists of code points. -/
abbrev PyStr := List Char

/-- Coerce a Lean string literal to the `PyStr` model. -/
def pyS (s : String) : PyStr := s.data

/-- The identity function on `PyStr`; stands in for `unicodedata.normalize
("NFC", ·)` on inputs that are already NFC-stable (all code points below
U+0300). -/
def pyId : PyStr → PyStr := id

/-- Python whitespace (the set recognised by `str.strip`, `str.split` and by
`\s` in `re` patterns on `str`, i.e. `Py_UNICODE_ISSPACE`). -/
def isSpaceC (c : Char) : Bool :=
  let n := c.toNat
  (9 ≤ n && n ≤ 13) || (28 ≤ n && n ≤ 31) || n = 32 || n = 133 || n = 160 ||
  n = 5760 || (8192 ≤ n && n ≤ 8202) || n = 8232 || n = 8233 || n = 8239 ||
  n = 8287 || n = 12288

/-- ASCII decimal digit (`\d` over the inputs exercised here). -/
def isDigitC (c : Char) : Bool :=
  48 ≤ c.toNat && c.toNat ≤ 57

/-- Numeric value of an ASCII digit list (most significant first). -/
def digitsValL (s : PyStr) : Nat :=
  s.foldl (fun acc c => acc * 10 + (c.toNat - 48)) 0

/-- Decimal digits of a natural number (fuel-indexed; each step divides a
positive number by 10, so `n + 1` units of fuel always suffice). -/
def natDigitsGo : Nat → Nat → PyStr
  | 0, _ => []
  | fuel + 1, n =>
    if n < 10 then [Char.ofNat (48 + n)]
    else natDigitsGo fuel (n / 10) ++ [Char.ofNat (48 + n % 10)]

/-- Python's `str(n)` for `n ≥ 0`. -/
def natDigits (n : Nat) : PyStr := natDigitsGo (n + 1) n

/-- Python `str.lower`, pointwise: ASCII letters and the Latin-1 uppercase
range (as used by the French corpus).  Full Unicode case mapping is not
modelled; all characters appearing in the sources are covered. -/
def lowerC (c : Char) : Char :=
  let n := c.toNat
  if 65 ≤ n && n ≤ 90 then Char.ofNat (n + 32)
  else if 192 ≤ n && n ≤ 222 && n ≠ 215 then Char.ofNat (n + 32)
  else c

/-- Python `str.upper`, pointwise (inverse direction of `lowerC`). -/
def upperC (c : Char) : Char :=
  let n := c.toNat
  if 97 ≤ n && n ≤ 122 then Char.ofNat (n - 32)
  else if 224 ≤ n && n ≤ 254 && n ≠ 247 then Char.ofNat (n - 32)
  else c

/-- `s.lower()`. -/
def pyLowerS (s : PyStr) : PyStr := s.map lowerC

/-- `s.upper()`. -/
def pyUpperS (s : PyStr) : PyStr := s.map upperC

/-- Literal-prefix test (`re` literal at the current position). -/
def startsWithL : PyStr → PyStr → Bool
  | [], _ => true
  | _ :: _, [] => false
  | p :: ps, c :: cs => p = c && startsWithL ps cs

/-- Case-insensitive literal-prefix test (IGNORECASE literals). -/
def startsWithCI (pat s : PyStr) : Bool :=
  startsWithL (pyLowerS pat) (pyLowerS s)

/-- Python's substring containment `needle in hay`. -/
def pyIn (n : PyStr) : PyStr → Bool
  | [] => startsWithL n []
  | c :: t => startsWithL n (c :: t) || pyIn n t

/-- Length of `dropWhile` never exceeds the input's length. -/
theorem dropWhile_len_le (p : Char → Bool) (t : PyStr) :
    (t.dropWhile p).length ≤ t.length :=
  (List.dropWhile_sublist p).length_le

/-- `hay.count(needle)`, fuel-indexed: every step with a non-empty needle
shortens the haystack by at least one, so `hay.length + 1` units of fuel
always suffice. -/
def pyCountGo : Nat → PyStr → PyStr → Nat
  | 0, _, _ => 0
  | fuel + 1, n, h =>
    if n = [] then h.length + 1
    else
      match h with
      | [] => 0
      | c :: t =>
        if startsWithL n (c :: t) then
          1 + pyCountGo fuel n ((c :: t).drop n.length)
        else pyCountGo fuel n t

/-- Python `hay.count(needle)`: non-overlapping, left-to-right. -/
def pyCount (n : PyStr) (h : PyStr) : Nat := pyCountGo (h.length + 1) n h

/-- Remove trailing Python whitespace (the right half of `str.strip`). -/
def trimEndC : PyStr → PyStr
  | [] => []
  | a :: t =>
    let r := trimEndC t
    if r = [] && isSpaceC a then [] else a :: r

/-- Python `s.strip()`. -/
def pyStrip (s : PyStr) : PyStr := trimEndC (s.dropWhile isSpaceC)

/-- `re.sub(r"\s+", " ", text)`: collapse every whitespace run to a single
ASCII space. -/
def collapseWs : PyStr → PyStr
  | [] => []
  | a :: t =>
    if isSpaceC a then
      match t with
      | b :: _ => if isSpaceC b then collapseWs t else ' ' :: collapseWs t
      | [] => [' ']
    else a :: collapseWs t

/-- Worker for `str.split()`: `acc` is the reversed current word. -/
def splitWsGo (acc : PyStr) : PyStr → List PyStr
  | [] => if acc = [] then [] else [acc.reverse]
  | c :: t =>
    if isSpaceC c then
      if acc = [] then splitWsGo [] t else acc.reverse :: splitWsGo [] t
    else splitWsGo (c :: acc) t

/-- Python `s.split()` (split on whitespace runs, dropping empties). -/
def splitWsL (s : PyStr) : List PyStr := splitWsGo [] s

/-- `sep.join(xs)`. -/
def joinSep (sep : PyStr) : List PyStr → PyStr
  | [] => []
  | [x] => x
  | x :: y :: t => x ++ sep ++ joinSep sep (y :: t)

/-- First-`some`-wins chaining of pattern attempts (models the sequential
`if m: return …` structure of the Python functions). -/
def orElseO {α : Type} : Option α → Option α → Option α
  | some a, _ => some a
  | none, b => b

/-! ## `src/pipelines/etl/normalize_dates.py` -/

/-- `int(s)` on an optionally signed ASCII-digit string.  (CPython also
accepts underscores between digits and Unicode digits; those inputs never
occur here, since `normalize_year` is only fed `\d{2,4}` captures.) -/
def digitsToInt (ds : PyStr) : Option Int :=
  if ds ≠ [] && ds.all isDigitC then some (digitsValL ds : Int) else none

/-- `int(s)` after stripping, as used by `normalize_year` (an optional sign
followed by digits). -/
def pyIntL : PyStr → Option Int
  | [] => none
  | c :: ds =>
    if c = '+' then digitsToInt ds
    else if c = '-' then (digitsToInt ds).map (fun n => -n)
    else digitsToInt (c :: ds)

/-- `normalize_year` (normalize_dates.py lines 45-60): 2-digit years become
`1900 + y`; the result is kept only inside `[1800, 2100]`. -/
def normalizeYear (s : PyStr) : Option PyStr :=
  let t := pyStrip s
  if t = [] then none
  else
    match pyIntL t with
    | none => none
    | some y =>
      let y2 : Int := if y < 100 then 1900 + y else y
      if 1800 ≤ y2 ∧ y2 ≤ 2100 then some (natDigits y2.toNat) else none

/-- The French month table `FRENCH_MONTHS`. -/
def frenchMonths : List (PyStr × PyStr) :=
  [(pyS "janvier", pyS "01"), (pyS "jan", pyS "01"), (pyS "janv", pyS "01"),
   (pyS "février", pyS "02"), (pyS "fevrier", pyS "02"), (pyS "fév", pyS "02"),
   (pyS "fev", pyS "02"),
   (pyS "mars", pyS "03"), (pyS "mar", pyS "03"),
   (pyS "avril", pyS "04"), (pyS "avr", pyS "04"),
   (pyS "mai", pyS "05"),
   (pyS "juin", pyS "06"), (pyS "jun", pyS "06"),
   (pyS "juillet", pyS "07"), (pyS "juil", pyS "07"), (pyS "jul", pyS "07"),
   (pyS "août", pyS "08"), (pyS "aout", pyS "08"), (pyS "aoû", pyS "08"),
   (pyS "septembre", pyS "09"), (pyS "sept", pyS "09"), (pyS "sep", pyS "09"),
   (pyS "octobre", pyS "10"), (pyS "oct", pyS "10"),
   (pyS "novembre", pyS "11"), (pyS "nov", pyS "11"),
   (pyS "décembre", pyS "12"), (pyS "decembre", pyS "12"), (pyS "déc", pyS "12"),
   (pyS "dec", pyS "12")]

/-- `FRENCH_MONTHS.get(m)`. -/
def monthLookup (m : PyStr) : Option PyStr :=
  (frenchMonths.find? (fun p => p.1 = m)).map (·.2)

/-- The `[a-zéûô]` class of the French date patterns, under IGNORECASE. -/
def isMonthChar (c : Char) : Bool :=
  let n := c.toNat
  (97 ≤ n && n ≤ 122) || (65 ≤ n && n ≤ 90) ||
  n = 233 || n = 251 || n = 244 || n = 201 || n = 219 || n = 212

/-- The `[-\s]` separator class. -/
def isDashSpC (c : Char) : Bool := c = '-' || isSpaceC c

/-- The `[-–]` dash class (ASCII hyphen or en-dash). -/
def isDashC (c : Char) : Bool := c = '-' || c.toNat = 8211

/-- `\d{4}` at the current position: four ASCII digits plus the remainder. -/
def parse4dC : PyStr → Option (PyStr × PyStr)
  | a :: b :: c :: d :: r =>
    if isDigitC a && isDigitC b && isDigitC c && isDigitC d then
      some ([a, b, c, d], r)
    else none
  | _ => none

/-- `re.match(r'[Dd]écennie\s+(\d{4})', s)` → `"YYYYs"`. -/
def decadeStage (t : PyStr) : Option PyStr :=
  match t with
  | [] => none
  | c :: r =>
    if (c = 'D' ∨ c = 'd') ∧ startsWithL (pyS "écennie") r = true then
      let r2 := r.drop 7
      match r2 with
      | w :: _ =>
        if isSpaceC w then
          match parse4dC (r2.dropWhile isSpaceC) with
          | some (ds, _) => some (ds ++ [Char.ofNat 0x73])
          | none => none
        else none
      | [] => none
    else none

/-- `re.match(r'^(\d{4})\s*[-–]\s*(\d{4})$', s)` → `"YYYY-YYYY"`. -/
def rangeStage (t : PyStr) : Option PyStr :=
  match parse4dC t with
  | none => none
  | some (a, r) =>
    match r.dropWhile isSpaceC with
    | [] => none
    | x :: r2 =>
      if isDashC x then
        match parse4dC (r2.dropWhile isSpaceC) with
        | some (b, []) => some (a ++ '-' :: b)
        | _ => none
      else none

/-- `re.match(r'^(\d{4})\s*[-–]\s*(\d{2,4})$', s)`: a two-digit right side
inherits the left side's century. -/
def range2Stage (t : PyStr) : Option PyStr :=
  match parse4dC t with
  | none => none
  | some (a, r) =>
    match r.dropWhile isSpaceC with
    | [] => none
    | x :: r2 =>
      if isDashC x then
        let r3 := r2.dropWhile isSpaceC
        if r3.all isDigitC && 2 ≤ r3.length && r3.length ≤ 4 then
          if r3.length = 2 then some (a ++ '-' :: (a.take 2 ++ r3))
          else some (a ++ '-' :: r3)
        else none
      else none

/-- `re.match(r'^(\d{4})$', s)`. -/
def yearStage (t : PyStr) : Option PyStr :=
  match parse4dC t with
  | some (ds, []) => some ds
  | _ => none

/-- Tail of the `french_dmy` pattern after the day group: `[-\s]` month
`\.?` `[-\s]` `(\d{2,4})$`, with the month/year validation of the source. -/
def dmyCore (rest : PyStr) : Option PyStr :=
  match rest with
  | [] => none
  | x :: r2 =>
    if isDashSpC x then
      let mrun := r2.takeWhile isMonthChar
      if mrun = [] then none
      else
        let r3 := r2.drop mrun.length
        let r4 := match r3 with
                  | '.' :: rr => rr
                  | _ => r3
        match r4 with
        | [] => none
        | y :: r5 =>
          if isDashSpC y ∧ r5.all isDigitC = true ∧ 2 ≤ r5.length ∧ r5.length ≤ 4 then
            match monthLookup (pyLowerS mrun), normalizeYear r5 with
            | some _, some yr => some yr
            | _, _ => none
          else none
    else none

/-- `re.match(r'^(\d{1,2})[-\s]([a-zéûô]+)\.?[-\s](\d{2,4})$', s, I)`:
returns the resolved year only when the month is known and the year is in
range; otherwise the source falls through to later patterns. -/
def dmyStage (t : PyStr) : Option PyStr :=
  match t with
  | a :: b :: r =>
    if isDigitC a then
      if isDigitC b then dmyCore r else dmyCore (b :: r)
    else none
  | _ => none

/-- `\s+([a-zéûô]+)\s+(\d{4})$`: whitespace, month run, whitespace, year at
end-of-string; shared by the `french_full` and `month_year` tails. -/
def monthYearTail (rest : PyStr) : Option PyStr :=
  match rest with
  | [] => none
  | w :: _ =>
    if isSpaceC w then
      let r1 := rest.dropWhile isSpaceC
      let m := r1.takeWhile isMonthChar
      if m = [] then none
      else
        match r1.drop m.length with
        | [] => none
        | w2 :: _ =>
          if isSpaceC w2 then
            let r3 := (r1.drop m.length).dropWhile isSpaceC
            if r3.all isDigitC && r3.length = 4 then some r3 else none
          else none
    else none

/-- `re.match(r'^(\d{1,2})(?:er|e|ème)?\s+([a-zéûô]+)\s+(\d{4})$', s, I)`:
emits the year with no month validation and no range check. -/
def ffStage (t : PyStr) : Option PyStr :=
  match t with
  | [] => none
  | a :: r0 =>
    if isDigitC a then
      let r := match r0 with
               | b :: r1 => if isDigitC b then r1 else r0
               | [] => r0
      orElseO (if startsWithL (pyS "er") r then monthYearTail (r.drop 2) else none)
        (orElseO (if startsWithL (pyS "e") r then monthYearTail (r.drop 1) else none)
          (orElseO (if startsWithL (pyS "ème") r then monthYearTail (r.drop 3) else none)
            (monthYearTail r)))
    else none

/-- `re.match(r'^([a-zéûô]+)\s+(\d{4})$', s, I)`. -/
def myStage (t : PyStr) : Option PyStr :=
  match t with
  | [] => none
  | a :: _ =>
    if isMonthChar a then
      let m := t.takeWhile isMonthChar
      monthYearTail (t.drop m.length)
    else none

/-- `re.search(r'[-–]\s*(\d{1,2})\s+([a-zéûô]+)\s+(\d{4})\s*$', s, I)`,
parsed from the anchored end of the string. -/
def endDateStage (t : PyStr) : Option PyStr :=
  let r := t.reverse
  let r1 := r.dropWhile isSpaceC
  let yr := r1.takeWhile isDigitC
  if yr.length = 4 then
    match r1.drop 4 with
    | [] => none
    | w :: _ =>
      if isSpaceC w then
        let r2 := (r1.drop 4).dropWhile isSpaceC
        let m := r2.takeWhile isMonthChar
        if m = [] then none
        else
          match r2.drop m.length with
          | [] => none
          | w2 :: _ =>
            if isSpaceC w2 then
              let r3 := (r2.drop m.length).dropWhile isSpaceC
              let dy := r3.takeWhile isDigitC
              if 1 ≤ dy.length && dy.length ≤ 2 then
                match (r3.drop dy.length).dropWhile isSpaceC with
                | d :: _ => if isDashC d then some yr.reverse else none
                | [] => none
              else none
            else none
      else none
  else none

/-- `re.match(r'^([a-zéûô]+)\.?[-\s](\d{2})$', s, I)` followed by
`normalize_year` (which always succeeds on a 2-digit year). -/
def abbrevStage (t : PyStr) : Option PyStr :=
  match t with
  | [] => none
  | a :: _ =>
    if isMonthChar a then
      let m := t.takeWhile isMonthChar
      let r3 := t.drop m.length
      let r4 := match r3 with
                | '.' :: rr => rr
                | _ => r3
      match r4 with
      | [] => none
      | y :: r5 =>
        if isDashSpC y ∧ r5.all isDigitC = true ∧ r5.length = 2 then
          match normalizeYear r5 with
          | some yr => some yr
          | none => none
        else none
    else none

/-- `re.search(r'(\d{4})', s)` with the `[1800, 2100]` validation: the first
embedded run of four digits, kept only when its value is in range. -/
def lastResortStage : PyStr → Option PyStr
  | a :: b :: c :: d :: r =>
    if isDigitC a && isDigitC b && isDigitC c && isDigitC d then
      let v := digitsValL [a, b, c, d]
      if 1800 ≤ v ∧ v ≤ 2100 then some (natDigits v) else none
    else lastResortStage (b :: c :: d :: r)
  | _ => none

/-- `parse_date` (normalize_dates.py lines 63-145): the ten patterns tried in
source order, first match wins. -/
def parseDate (s : PyStr) : Option PyStr :=
  if s = [] then none
  else
    let t := pyStrip s
    orElseO (decadeStage t)
      (orElseO (rangeStage t)
        (orElseO (range2Stage t)
          (orElseO (yearStage t)
            (orElseO (dmyStage t)
              (orElseO (ffStage t)
                (orElseO (myStage t)
                  (orElseO (endDateStage t)
                    (orElseO (abbrevStage t) (lastResortStage t)))))))))

/-! ## Data model (`RawRecord` and friends)

A raw manifest record carries the fields read by `clean_metadata.py`.
Optional string fields model JSON string-or-null-or-absent uniformly as
`Option PyStr` (`none` covers both null and absence, which `dict.get`
conflates).  A portal field distinguishes key-absent (`none`) from
key-present (`some v`, where `v` may itself be null), because the cleaning
pass `if key in portal_record: …` tests presence. -/

/-- One element of the raw `attributes` list; non-dict entries are skipped
by `isinstance(attr, dict)`. -/
inductive AttrEntry where
  | obj (trait_type : Option PyStr) (value : Option PyStr)
  | nonDict
deriving DecidableEq

/-- The portal-record dict, restricted to the six keys the pipeline reads.
Each field is `none` when the key is absent, `some v` when present with
value `v` (itself `none` for JSON null). -/
structure PortalRecord where
  titre : Option (Option PyStr) := none
  descriptionF : Option (Option PyStr) := none
  dateF : Option (Option PyStr) := none
  coteF : Option (Option PyStr) := none
  mentionDeCredits : Option (Option PyStr) := none
  lieu : Option (Option PyStr) := none
deriving DecidableEq

/-- A raw manifest record (the fields `enrich_record` reads). -/
structure RawRecord where
  name : Option PyStr := none
  description : Option PyStr := none
  attributes : List AttrEntry := []
  portal_record : Option PortalRecord := none
  image_filename : Option PyStr := none
  resolved_image_filename : Option PyStr := none
  credits : Option PyStr := none
deriving DecidableEq

/-- Python truthiness of a string-or-null value. -/
def truthyO : Option PyStr → Bool
  | none => false
  | some s => !s.isEmpty

/-- Python `a or b` on string-or-null values. -/
def pyOr2 (a b : Option PyStr) : Option PyStr :=
  if truthyO a then a else b

/-! ## `src/pipelines/etl/clean_metadata.py` — text utilities -/

/-- The typographic replacements of `clean_text`:
`’`→`'`, `–`→`-`, `—`→`-`. -/
def replChar (c : Char) : Char :=
  if c.toNat = 0x2019 then Char.ofNat 0x27
  else if c.toNat = 0x2013 then Char.ofNat 0x2d
  else if c.toNat = 0x2014 then Char.ofNat 0x2d
  else c

/-- The boilerplate sentence stripped by the pipelines `clean_text`. -/
def sansObjetPat : PyStr := pyS "Sans objet (aucune description fournie)."

/-- `re.sub(r"^Sans objet \(aucune description fournie\)\.\s*", "", t, I)`:
drop one leading occurrence of the boilerplate plus following whitespace. -/
def stripSansObjet (t : PyStr) : PyStr :=
  if startsWithCI sansObjetPat t then
    (t.drop sansObjetPat.length).dropWhile isSpaceC
  else t

/-- `clean_text` of `src/data/mtl_archives/clean_metadata.py` (lines 30-37):
NFC, typographic replacements, whitespace collapsing, strip.  `nfc` is the
external `unicodedata.normalize("NFC", ·)`. -/
def cleanTextL (nfc : PyStr → PyStr) : Option PyStr → PyStr
  | none => []
  | some s => pyStrip (collapseWs ((nfc s).map replChar))

/-- `clean_text` of `src/pipelines/etl/clean_metadata.py` (lines 36-45):
like `cleanTextL` but additionally removes one leading
"Sans objet (aucune description fournie)." boilerplate before stripping. -/
def cleanTextP (nfc : PyStr → PyStr) : Option PyStr → PyStr
  | none => []
  | some s => pyStrip (stripSansObjet (collapseWs ((nfc s).map replChar)))

/-- The pipelines `ABBREVIATION_MAP` (all values empty, forcing synthesis). -/
def abbreviationKeys : List PyStr :=
  [pyS "s/o", pyS "sans objet", pyS "n/d", pyS "n.a.", pyS "n/a"]

/-- `expand_abbreviation` (pipelines variant): known null-content
abbreviations map to the empty string. -/
def expandAbbreviation (t : PyStr) : PyStr × Bool :=
  if pyLowerS t ∈ abbreviationKeys then ([], true) else (t, false)

/-- `merge_descriptions` (clean_metadata.py lines 122-135).  The arguments
are string-or-null, as in the dynamically typed source (`clean_text` maps
null to the empty string). -/
def mergeDescriptions (nfc : PyStr → PyStr) (primary secondary : Option PyStr) :
    PyStr × PyStr :=
  let cp := cleanTextP nfc primary
  let cs := cleanTextP nfc secondary
  if cp ≠ [] then
    let (expanded, changed) := expandAbbreviation cp
    if changed then (expanded, pyS "expanded-abbreviation") else (cp, pyS "original")
  else if cs ≠ [] then
    let (expanded, changed) := expandAbbreviation cs
    if changed then (expanded, pyS "portal-expanded") else (cs, pyS "portal")
  else ([], pyS "missing")

/-! ## Photo-series extraction (clean_metadata.py lines 29-112) -/

/-- `re.search(r'image[_-](\d+)', f, I)`: leftmost "image" (any case)
followed by `_` or `-` and a digit run. -/
def scanImageNum : PyStr → Option Nat
  | [] => none
  | c :: t =>
    if startsWithCI (pyS "image") (c :: t) then
      match (c :: t).drop 5 with
      | x :: r2 =>
        if (x = '_' ∨ x = '-') ∧ (r2.takeWhile isDigitC) ≠ [] then
          some (digitsValL (r2.takeWhile isDigitC))
        else scanImageNum t
      | [] => scanImageNum t
    else scanImageNum t

/-- The extension alternatives of the trailing-number pattern. -/
def imgExts : List PyStr :=
  [pyS "jpg", pyS "jpeg", pyS "png", pyS "tif", pyS "tiff"]

/-- Case-insensitive suffix test. -/
def endsWithCI (pat s : PyStr) : Bool :=
  startsWithL (pyLowerS pat).reverse (pyLowerS s).reverse

/-- `re.search(r'_(\d+)\.(jpg|jpeg|png|tif|tiff)$', f, I)`: a digit run just
before the final `.ext`, preceded by an underscore. -/
def tailImageNum (f : PyStr) : Option Nat :=
  match imgExts.find? (fun e => endsWithCI ('.' :: e) f) with
  | none => none
  | some e =>
    let before := f.take (f.length - (e.length + 1))
    let run := before.reverse.takeWhile isDigitC
    if run ≠ [] then
      match before.reverse.drop run.length with
      | '_' :: _ => some (digitsValL run.reverse)
      | _ => none
    else none

/-- `extract_image_from_filename` (clean_metadata.py lines 48-56). -/
def extractImageFromFilename (f : PyStr) : Option Nat :=
  orElseO (scanImageNum f) (tailImageNum f)

/-- The fixed photo-series template sentence (`PHOTO_SERIES_PATTERN`). -/
def seriesPhrase : PyStr :=
  pyS "Le reportage photographique comprend les lieux et bâtiments suivants"

/-- `PHOTO_SERIES_PATTERN.match(d)`'s capture group: after the template
sentence, `\s*:?\s*(.+)` with DOTALL — greedily skip whitespace, one
optional colon, whitespace; the group is the rest, backtracking to the last
character when the tail is all filler. -/
def seriesContent (d : PyStr) : Option PyStr :=
  if startsWithCI seriesPhrase d then
    let r := d.drop seriesPhrase.length
    if hr : r = [] then none
    else
      let r1 := r.dropWhile isSpaceC
      let r2 := match r1 with
                | ':' :: t => t
                | _ => r1
      let r3 := r2.dropWhile isSpaceC
      if r3 ≠ [] then some r3 else some [r.getLast hr]
  else none

/-- The `[\d\s,-]` character class of the series-entry pattern. -/
def serClass (c : Char) : Bool :=
  isDigitC c || isSpaceC c || c = ',' || c = '-'

/-- `[\d\s,-]+\)` at the current position: the non-empty class run and the
text after the closing parenthesis. -/
def runParen (r : PyStr) : Option (PyStr × PyStr) :=
  let run := r.takeWhile serClass
  if run ≠ [] then
    match r.drop run.length with
    | ')' :: rest => some (run, rest)
    | _ => none
  else none

/-- A successful `runParen` strictly shrinks the text. -/
theorem runParen_len {r nums rest : PyStr}
    (h : runParen r = some (nums, rest)) : rest.length < r.length := by
  unfold runParen at h
  by_cases h1 : r.takeWhile serClass = []
  · simp [h1] at h
  · simp only [ne_eq, h1, not_false_iff, if_true] at h
    rcases hd : r.drop (r.takeWhile serClass).length with _ | ⟨x, xs⟩ <;>
      rw [hd] at h
    · simp at h
    · by_cases hx : x = ')'
      · subst hx
        simp only [Option.some.injEq, Prod.mk.injEq] at h
        rcases h with ⟨_, rfl⟩
        have hlen := List.length_drop (r.takeWhile serClass).length r
        rw [hd] at hlen
        simp only [List.length_cons] at hlen
        have h2 : 1 ≤ (r.takeWhile serClass).length := by
          rcases he : r.takeWhile serClass with _ | _
          · exact absurd he h1
          · simp
        omega
      · simp [hx] at h

/-- The `(?:image|images)\s*[\d\s,-]+\)` part after an opening parenthesis:
returns the annotation body (the `[\d\s,-]+` capture) and the text after the
closing parenthesis.  The alternation tries `image` first and falls back to
`images` exactly as the backtracking engine does (`\s*` is subsumed by the
class, which contains `\s`). -/
def validParen (after : PyStr) : Option (PyStr × PyStr) :=
  if startsWithCI (pyS "image") after then
    let r1 := after.drop 5
    match runParen r1 with
    | some v => some v
    | none =>
      match r1 with
      | s0 :: r2 => if lowerC s0 = 's' then runParen r2 else none
      | [] => none
  else none

/-- Length bound for `validParen` (for termination of the scanner). -/
theorem validParen_len {after nums rest : PyStr}
    (h : validParen after = some (nums, rest)) : rest.length < after.length ∨ after = [] := by
  unfold validParen at h
  by_cases h0 : startsWithCI (pyS "image") after = true
  · simp only [h0, if_pos] at h
    rcases hafter : after with _ | ⟨a0, at0⟩
    · right; rfl
    · left
      rw [hafter] at h
      have hd5 : ((a0 :: at0).drop 5).length ≤ at0.length := by
        rw [List.length_drop]; simp only [List.length_cons]; omega
      rcases h1 : runParen ((a0 :: at0).drop 5) with _ | v
      · rw [h1] at h
        rcases hr1 : (a0 :: at0).drop 5 with _ | ⟨s0, r2⟩ <;> rw [hr1] at h
        · simp at h
        · simp only at h
          by_cases hs : lowerC s0 = 's'
          · simp only [hs, if_pos] at h
            have := runParen_len h
            have hlen : r2.length + 1 ≤ at0.length := by
              have := congrArg List.length hr1
              simp only [List.length_cons] at this
              omega
            simp only [List.length_cons]
            omega
          · simp [hs] at h
      · rw [h1] at h
        simp only [Option.some.injEq] at h
        rcases v with ⟨n1, r1⟩
        rw [h] at h1
        have := runParen_len h1
        simp only [List.length_cons]
        omega
  · simp only [Bool.not_eq_true] at h0
    simp [h0] at h

/-- `findall(r'([^(]+?)\s*\((?:image|images)\s*([\d\s,-]+)\)', content, I)`:
scan left to right; each match anchors on the first parenthesis reachable
from the scan position, the lazy group is the segment before it with its
trailing whitespace given back (at least one character), and scanning
resumes after the closing parenthesis. -/
def scanEntriesGo : Nat → PyStr → List (PyStr × PyStr)
  | 0, _ => []
  | fuel + 1, text =>
    let pre := text.takeWhile (fun c => !(c = '('))
    match text.dropWhile (fun c => !(c = '(')) with
    | [] => []
    | _ :: after =>
      match validParen after with
      | some (nums, rem) =>
        if pre = [] then scanEntriesGo fuel after
        else
          (let g := trimEndC pre
           (if g = [] then pre.take 1 else g, nums)) :: scanEntriesGo fuel rem
      | none => scanEntriesGo fuel after

def scanEntries (text : PyStr) : List (PyStr × PyStr) :=
  scanEntriesGo (text.length + 1) text

/-- Worker for `re.findall(r'\d+', s)`: `cur` is the value of the digit run
in progress. -/
def digitRunsGo (cur : Option Nat) : PyStr → List Nat
  | [] =>
    match cur with
    | some v => [v]
    | none => []
  | c :: t =>
    if isDigitC c then digitRunsGo (some ((cur.getD 0) * 10 + (c.toNat - 48))) t
    else
      match cur with
      | some v => v :: digitRunsGo none t
      | none => digitRunsGo none t

/-- The values of `re.findall(r'\d+', s)` (maximal digit runs, in order). -/
def digitRunsL (s : PyStr) : List Nat := digitRunsGo none s

/-- Worker for `re.findall(r'(\d+)\s*-\s*(\d+)', s)`, fuel-indexed: every
step shortens the text, so `s.length + 1` units of fuel always suffice. -/
def rangePairsGo : Nat → PyStr → List (Nat × Nat)
  | 0, _ => []
  | fuel + 1, s =>
    match s with
    | [] => []
    | c :: t =>
      if isDigitC c then
        let run := (c :: t).takeWhile isDigitC
        let r1 := t.dropWhile isDigitC
        match r1.dropWhile isSpaceC with
        | '-' :: r3 =>
          let r4 := r3.dropWhile isSpaceC
          let run2 := r4.takeWhile isDigitC
          if run2 ≠ [] then
            (digitsValL run, digitsValL run2) ::
              rangePairsGo fuel (r4.dropWhile isDigitC)
          else rangePairsGo fuel r1
        | _ => rangePairsGo fuel r1
      else rangePairsGo fuel t

/-- The pairs of `re.findall(r'(\d+)\s*-\s*(\d+)', s)` (leftmost,
non-overlapping; a failed right side resumes scanning after the left run). -/
def rangePairsL (s : PyStr) : List (Nat × Nat) := rangePairsGo (s.length + 1) s

/-- Membership of an image number in an annotation body: all `\d+` runs plus
all `a-b` ranges (`range(a, b+1)`). -/
def numContains (nums : PyStr) (n : Nat) : Bool :=
  (digitRunsL nums).contains n ||
    (rangePairsL nums).any (fun p => p.1 ≤ n && n ≤ p.2)

/-- First series entry whose annotation contains the image number. -/
def findEntryFor (n : Nat) : List (PyStr × PyStr) → Option PyStr
  | [] => none
  | e :: t => if numContains e.2 n then some (trimEndC (e.1.dropWhile isSpaceC)) else findEntryFor n t

/-- `parse_photo_series` (clean_metadata.py lines 59-112). -/
def parsePhotoSeries (description : PyStr) (imageNum : Option Nat) :
    PyStr × Bool :=
  match seriesContent description with
  | none => (description, false)
  | some content =>
    match imageNum with
    | none =>
      let locations := (scanEntries content).map (·.1)
      if locations ≠ [] then
        let cleanLocations :=
          (locations.map (fun l => trimEndC (l.dropWhile isSpaceC))).filter (· ≠ [])
        (pyS "Reportage photographique: " ++
           joinSep (pyS "; ") (cleanLocations.take 5) ++ pyS ".", true)
      else (pyStrip (content.take 200) ++ pyS "...", true)
    | some n =>
      let entries := scanEntries content
      match findEntryFor n entries with
      | some loc => (loc, true)
      | none =>
        match entries with
        | e :: _ => (trimEndC (e.1.dropWhile isSpaceC), true)
        | [] => (pyStrip (content.take 150) ++ pyS "...", true)

/-! ## Language classification
(`src/pipelines/etl/audit_metadata_quality.py` lines 43, 151-171) -/

/-- `LANGUAGE_MIN_LENGTH`. -/
def languageMinLength : Nat := 24

/-- `heuristic_language_guess` (audit_metadata_quality.py lines 163-171). -/
def heuristicLanguageGuess (v : PyStr) : PyStr :=
  let lower := pyLowerS v
  let frenchMarkers :=
    pyCount (pyS "é") lower + pyCount (pyS "è") lower + pyCount (pyS "à") lower +
    pyCount (pyS "ç") lower + pyCount (pyS " qué") lower +
    pyCount (pyS " montréal") lower
  let englishMarkers :=
    pyCount (pyS "the ") lower + pyCount (pyS " and ") lower +
    pyCount (pyS "street") lower + pyCount (pyS " avenue") lower +
    pyCount (pyS "montreal") lower
  if frenchMarkers > englishMarkers ∧ frenchMarkers ≥ 1 then pyS "fr"
  else if englishMarkers > frenchMarkers ∧ englishMarkers ≥ 1 then pyS "en"
  else pyS "unknown"

/-- `detect_language_label` (audit_metadata_quality.py lines 151-160):
text shorter than 24 characters is always `"unknown"`; otherwise the
optional probabilistic detector is consulted (its absence falls back to the
heuristic, its exception maps to `"unknown"`). -/
def detectLanguageLabel (detect : Option (PyStr → Option PyStr)) (v : PyStr) :
    PyStr :=
  if v = [] ∨ v.length < languageMinLength then pyS "unknown"
  else
    match detect with
    | none => heuristicLanguageGuess v
    | some f =>
      match f v with
      | none => pyS "unknown"
      | some label => label

/-! ## `enrich_record` (clean_metadata.py lines 138-247) -/

/-- Python-dict insertion: update in place if the key exists, else append. -/
def dictUpsert (m : List (Option PyStr × Option PyStr)) (k v : Option PyStr) :
    List (Option PyStr × Option PyStr) :=
  match m with
  | [] => [(k, v)]
  | (k1, v1) :: t => if k1 = k then (k1, v) :: t else (k1, v1) :: dictUpsert t k v

/-- `{attr.get("trait_type"): attr.get("value") for attr in attributes if
isinstance(attr, dict)}` — insertion-ordered, last value wins. -/
def attrMapOf (attrs : List AttrEntry) : List (Option PyStr × Option PyStr) :=
  attrs.foldl
    (fun m e =>
      match e with
      | .obj t v => dictUpsert m t v
      | .nonDict => m)
    []

/-- `dict.get(k)` on an association list. -/
def lookupPairs {α : Type} (m : List (Option PyStr × α)) (k : Option PyStr) :
    Option α :=
  (m.find? (fun p => p.1 = k)).map (·.2)

/-- Flatten `dict.get(k)` over an optional-valued dict (absent and
present-null both read back as null). -/
def joinO : Option (Option PyStr) → Option PyStr
  | none => none
  | some v => v

/-- The body of the `attributes_map` comprehension: keep an entry whose raw
value is truthy and clean it. -/
def attrClean (nfc : PyStr → PyStr) (p : Option PyStr × Option PyStr) :
    Option (Option PyStr × PyStr) :=
  match p.2 with
  | some s => if s ≠ [] then some (p.1, cleanTextP nfc (some s)) else none
  | none => none

/-- `attributes_map`: keep entries whose raw value is truthy, clean the
value (clean_metadata.py line 176). -/
def attributesMapOf (nfc : PyStr → PyStr) (attrs : List AttrEntry) :
    List (Option PyStr × PyStr) :=
  (attrMapOf attrs).filterMap (attrClean nfc)

/-- The portal-cleaning pass (clean_metadata.py lines 178-182): every present
key among the six is replaced by its cleaned text. -/
def cleanPortal (nfc : PyStr → PyStr) (p : PortalRecord) : PortalRecord where
  titre := p.titre.map (fun v => some (cleanTextP nfc v))
  descriptionF := p.descriptionF.map (fun v => some (cleanTextP nfc v))
  dateF := p.dateF.map (fun v => some (cleanTextP nfc v))
  coteF := p.coteF.map (fun v => some (cleanTextP nfc v))
  mentionDeCredits := p.mentionDeCredits.map (fun v => some (cleanTextP nfc v))
  lieu := p.lieu.map (fun v => some (cleanTextP nfc v))

/-- Python `str.rstrip('.')`. -/
def trimEndDotC : PyStr → PyStr
  | [] => []
  | a :: t =>
    let r := trimEndDotC t
    if r = [] && a = '.' then [] else a :: r

/-- The fixed filler sentence appended to short synthetic descriptions. -/
def syntheticFiller : PyStr :=
  pyS " Détails supplémentaires non disponibles; description générée automatiquement."

/-- `build_synthetic_description` (clean_metadata.py lines 138-167). -/
def buildSyntheticDescription (nfc : PyStr → PyStr) (record : RawRecord) :
    PyStr :=
  let name := cleanTextP nfc record.name
  let attrMap := attrMapOf record.attributes
  let dateValue := cleanTextP nfc (joinO (lookupPairs attrMap (some (pyS "Date"))))
  let coteValue := cleanTextP nfc (joinO (lookupPairs attrMap (some (pyS "Cote"))))
  let portal := record.portal_record.getD {}
  let locationHint := cleanTextP nfc (joinO portal.lieu)
  let frags0 :=
    if name ≠ [] then [trimEndDotC name ++ pyS "."]
    else [pyS "Photographie d'archive de Montréal."]
  let frags1 := frags0 ++
    (if dateValue ≠ [] then [pyS "Capturée ou datée de " ++ dateValue ++ pyS "."]
     else [])
  let frags2 := frags1 ++
    (if locationHint ≠ [] then [pyS "Localisation: " ++ locationHint ++ pyS "."]
     else [])
  let frags3 := frags2 ++
    (if coteValue ≠ [] then [pyS "Cote archivistique " ++ coteValue ++ pyS "."]
     else [])
  let frags4 :=
    if frags3 = [] ∨ (joinSep (pyS " ") frags3).length < 48 then
      let extra := cleanTextP nfc (joinO portal.descriptionF)
      if extra ≠ [] ∧ extra ∉ frags3 then frags3 ++ [trimEndDotC extra ++ pyS "."]
      else frags3
    else frags3
  let composed := pyStrip (joinSep (pyS " ") frags4)
  if composed.length < 50 then composed ++ syntheticFiller else composed

/-- The cleaned record on which `build_synthetic_description` is invoked
(`cleaned` has its `name` and `portal_record` rewritten before the call). -/
def recCleanedOf (nfc : PyStr → PyStr) (rec : RawRecord) : RawRecord :=
  { rec with
      name := some (cleanTextP nfc rec.name)
      portal_record := some (cleanPortal nfc (rec.portal_record.getD {})) }

/-- `portal_record.get("Description", "")` after the cleaning pass. -/
def portalDescOf (nfc : PyStr → PyStr) (rec : RawRecord) : Option PyStr :=
  match (cleanPortal nfc (rec.portal_record.getD {})).descriptionF with
  | none => some []
  | some v => v

/-- The merge step of `enrich_record` (lines 186-189). -/
def descStage0 (nfc : PyStr → PyStr) (rec : RawRecord) : PyStr × PyStr :=
  mergeDescriptions nfc (some (cleanTextP nfc rec.description))
    (portalDescOf nfc rec)

/-- `cleaned.get("image_filename") or cleaned.get("resolved_image_filename")
or ""`. -/
def imageFilenameOf (rec : RawRecord) : PyStr :=
  match pyOr2 rec.image_filename rec.resolved_image_filename with
  | some s => s
  | none => []

/-- The photo-series step of `enrich_record` (lines 191-200). -/
def descStage1 (nfc : PyStr → PyStr) (rec : RawRecord) : PyStr × PyStr :=
  let (dv0, src0) := descStage0 nfc rec
  if dv0 ≠ [] then
    let pr := parsePhotoSeries dv0 (extractImageFromFilename (imageFilenameOf rec))
    if pr.2 then (pr.1, src0 ++ pyS "+series-parsed") else (dv0, src0)
  else (dv0, src0)

/-- The synthesis step of `enrich_record` (lines 202-212): description,
provenance tag, and whether synthesis occurred. -/
def resolveDescription (nfc : PyStr → PyStr) (rec : RawRecord) :
    PyStr × PyStr × Bool :=
  let (dv1, src1) := descStage1 nfc rec
  if dv1 = [] ∨ dv1.length < 10 then
    (buildSyntheticDescription nfc (recCleanedOf nfc rec), pyS "synthetic", true)
  else if dv1.length < 50 then
    let sa := buildSyntheticDescription nfc (recCleanedOf nfc rec)
    if sa ≠ [] ∧ pyIn (pyLowerS sa) (pyLowerS dv1) = false then
      (pyStrip (dv1 ++ pyS ". " ++ sa), src1 ++ pyS "+synthetic", true)
    else (dv1, src1, false)
  else (dv1, src1, false)

/-- The normalized record produced by `enrich_record` (the fields written at
clean_metadata.py lines 171-247 that the spec's claims concern). -/
structure Enriched where
  attributes_map : List (Option PyStr × PyStr)
  name : PyStr
  description : PyStr
  description_source : PyStr
  description_language : PyStr
  credits : PyStr
  cote : PyStr
  quality_flags : List PyStr
  raw_description : Option PyStr
deriving DecidableEq

/-- `enrich_record` (clean_metadata.py lines 170-247). -/
def enrichRecord (nfc : PyStr → PyStr) (detect : Option (PyStr → Option PyStr))
    (rec : RawRecord) : Enriched :=
  let attrMap := attrMapOf rec.attributes
  let portal := cleanPortal nfc (rec.portal_record.getD {})
  let (desc, src2, synthUsed) := resolveDescription nfc rec
  let lang0 := detectLanguageLabel detect desc
  let lang1 := if lang0 = pyS "unknown" then heuristicLanguageGuess desc else lang0
  let language := if lang1 = [] then pyS "unknown" else lang1
  let credits := cleanTextP nfc (pyOr2 rec.credits (joinO portal.mentionDeCredits))
  let cote1 := cleanTextP nfc (joinO (lookupPairs attrMap (some (pyS "Cote"))))
  let cote2 := cleanTextP nfc (joinO portal.coteF)
  let cote := if cote1 ≠ [] then cote1 else cote2
  let qualityFlags :=
    (if synthUsed then [pyS "synthetic-description"] else []) ++
    (if desc.length < 50 then [pyS "short-description"] else []) ++
    (if pyUpperS desc = desc ∧ desc ≠ [] then [pyS "uppercase-description"] else [])
  { attributes_map := attributesMapOf nfc rec.attributes
    name := cleanTextP nfc rec.name
    description := desc
    description_source := src2
    description_language := language
    credits := credits
    cote := cote
    quality_flags := qualityFlags
    raw_description := rec.description }

/-! ## Duplicate-description detection
(`src/pipelines/etl/audit_metadata_quality.py`, `main`, lines 303-364) -/

/-- The audited fields read by the duplicate-description logic. -/
structure AuditRec where
  metadata_filename : Option PyStr := none
  metadataFilenameAlt : Option PyStr := none
  description : Option PyStr := none
deriving DecidableEq

/-- `str(record.get("metadata_filename") or record.get("metadataFilename")
or "")`. -/
def mfOf (r : AuditRec) : PyStr :=
  match pyOr2 r.metadata_filename r.metadataFilenameAlt with
  | some s => s
  | none => []

/-- `normalize_text` (audit_metadata_quality.py lines 145-148). -/
def normalizeTextA : Option PyStr → PyStr
  | none => []
  | some s => pyStrip s

/-- `" ".join(description.lower().split())` — the duplicate-grouping key. -/
def normKey (d : PyStr) : PyStr :=
  joinSep (pyS " ") (splitWsL (pyLowerS d))

/-- `defaultdict(list)` append: extend the existing group in place or open a
new one at the end (Python dicts iterate in insertion order). -/
def dupAppend (m : List (PyStr × List PyStr)) (k : PyStr) (v : PyStr) :
    List (PyStr × List PyStr) :=
  match m with
  | [] => [(k, [v])]
  | (k1, vs) :: t =>
    if k1 = k then (k1, vs ++ [v]) :: t else (k1, vs) :: dupAppend t k v

/-- The `duplicates` accumulator after the main loop: every record with a
non-empty description contributes its filename to its normalized-text
group. -/
def buildDuplicates (rs : List AuditRec) : List (PyStr × List PyStr) :=
  rs.foldl
    (fun m r =>
      let d := normalizeTextA r.description
      if d ≠ [] then dupAppend m (normKey d) (mfOf r) else m)
    []

/-- `list(dict.fromkeys(filenames))` — first-seen-order de-duplication. -/
def dedupFS (xs : List PyStr) : List PyStr :=
  xs.foldl (fun acc x => if x ∈ acc then acc else acc ++ [x]) []

/-- The filenames flagged `duplicate_description` (lines 355-364), in
emission order: every group with a non-empty key and more than one member
flags each of its de-duplicated filenames. -/
def dupFlagged (rs : List AuditRec) : List PyStr :=
  ((buildDuplicates rs).map
    (fun p => if p.1 ≠ [] ∧ p.2.length > 1 then dedupFS p.2 else [])).flatten

/-- Specification-side reading of a groupʼs members: the filenames of the
records with a non-empty description whose normalized text equals the key,
in corpus order. -/
def dupGroupSpec (rs : List AuditRec) (k : PyStr) : List PyStr :=
  (rs.filter
      (fun r =>
        normalizeTextA r.description ≠ [] ∧
          normKey (normalizeTextA r.description) = k)).map mfOf

/-! ## The streaming enrichment driver
(`clean_metadata.py`, `iterate_records` + `main`, lines 250-288) -/

/-- `iterate_records` composed with the `main` write loop: blank lines are
skipped; each remaining line is decoded (`json.loads`, modelled by `decode`)
and enriched; a decode failure propagates as an uncaught exception, ending
the run with the records written so far and the error. -/
def processLines (decode : PyStr → Except PyStr RawRecord)
    (nfc : PyStr → PyStr) (detect : Option (PyStr → Option PyStr)) :
    List PyStr → List Enriched × Option PyStr
  | [] => ([], none)
  | l :: ls =>
    let t := pyStrip l
    if t = [] then processLines decode nfc detect ls
    else
      match decode t with
      | .error e => ([], some e)
      | .ok r =>
        let rest := processLines decode nfc detect ls
        (enrichRecord nfc detect r :: rest.1, rest.2)

/-! ## General string lemmas -/

/-- A string is "stripped" when neither end carries whitespace (vacuously
true for the empty string). -/
def strippedOK (s : PyStr) : Prop :=
  (∀ a ∈ s.head?, isSpaceC a = false) ∧ (∀ a ∈ s.getLast?, isSpaceC a = false)

theorem strippedOK_nil : strippedOK [] := by
  constructor <;> intro a ha <;> simp at ha

theorem head_dropWhile (p : Char → Bool) (l : PyStr) :
    ∀ a ∈ (l.dropWhile p).head?, p a = false := by
  induction l with
  | nil => intro a ha; simp at ha
  | cons c t ih =>
    intro a ha
    rw [List.dropWhile_cons] at ha
    by_cases h : p c
    · rw [if_pos h] at ha
      exact ih a ha
    · rw [if_neg h] at ha
      simp only [List.head?_cons, Option.mem_def, Option.some.injEq] at ha
      subst ha
      simpa using h

theorem dropWhile_eq_self (p : Char → Bool) (s : PyStr)
    (h : ∀ a ∈ s.head?, p a = false) : s.dropWhile p = s := by
  rcases s with _ | ⟨a, t⟩
  · rfl
  · rw [List.dropWhile_cons, if_neg]
    simp only [Bool.not_eq_true]
    exact h a rfl

theorem trimEnd_getLast (s : PyStr) :
    ∀ x ∈ (trimEndC s).getLast?, isSpaceC x = false := by
  induction s with
  | nil => intro x hx; simp [trimEndC] at hx
  | cons a t ih =>
    intro x hx
    simp only [trimEndC] at hx
    by_cases h : (trimEndC t = [] && isSpaceC a) = true
    · rw [if_pos h] at hx; simp at hx
    · rw [if_neg h] at hx
      rcases hr : trimEndC t with _ | ⟨b, rb⟩
      · rw [hr] at hx
        simp only [List.getLast?_singleton, Option.mem_def, Option.some.injEq] at hx
        subst hx
        rw [hr] at h
        simpa using h
      · rw [hr] at hx
        rw [List.getLast?_cons_cons] at hx
        rw [← hr] at hx
        exact ih x hx

theorem trimEnd_eq_self (s : PyStr)
    (h : ∀ x ∈ s.getLast?, isSpaceC x = false) : trimEndC s = s := by
  induction s with
  | nil => rfl
  | cons a t ih =>
    simp only [trimEndC]
    rcases ht : t with _ | ⟨b, tb⟩
    · subst ht
      have ha : isSpaceC a = false := h a (by simp)
      simp [trimEndC, ha]
    · rw [← ht]
      have ht2 : trimEndC t = t := by
        apply ih
        intro x hx
        apply h
        rw [ht]
        rw [List.getLast?_cons_cons]
        rw [← ht]
        exact hx
      rw [ht2, ht]
      simp

theorem trimEnd_head (a : Char) (t : PyStr) :
    trimEndC (a :: t) = [] ∨ ∃ r, trimEndC (a :: t) = a :: r := by
  simp only [trimEndC]
  by_cases h : (trimEndC t = [] && isSpaceC a) = true
  · left; rw [if_pos h]
  · right; exact ⟨trimEndC t, by rw [if_neg h]⟩

theorem pyStrip_strippedOK (s : PyStr) : strippedOK (pyStrip s) := by
  unfold pyStrip
  constructor
  · intro a ha
    rcases hu : s.dropWhile isSpaceC with _ | ⟨c, t⟩
    · rw [hu] at ha; simp [trimEndC] at ha
    · rw [hu] at ha
      rcases trimEnd_head c t with h | ⟨r, h⟩ <;> rw [h] at ha
      · simp at ha
      · simp only [List.head?_cons, Option.mem_def, Option.some.injEq] at ha
        subst ha
        have h2 := head_dropWhile isSpaceC s
        rw [hu] at h2
        exact h2 _ rfl
  · exact trimEnd_getLast _

theorem pyStrip_eq_self (s : PyStr) (h : strippedOK s) : pyStrip s = s := by
  unfold pyStrip
  rw [dropWhile_eq_self _ _ h.1]
  exact trimEnd_eq_self _ h.2

/-- `startsWithL` implies a length bound. -/
theorem startsWithL_len {n h : PyStr} (hs : startsWithL n h = true) :
    n.length ≤ h.length := by
  induction n generalizing h with
  | nil => simp
  | cons p ps ih =>
    rcases h with _ | ⟨c, cs⟩
    · simp [startsWithL] at hs
    · simp only [startsWithL, Bool.and_eq_true] at hs
      simpa using ih hs.2

/-- A substring is no longer than its containing string. -/
theorem pyIn_len {n h : PyStr} (hi : pyIn n h = true) : n.length ≤ h.length := by
  induction h with
  | nil =>
    simp only [pyIn] at hi
    rcases n with _ | _
    · simp
    · simp [startsWithL] at hi
  | cons c t ih =>
    simp only [pyIn, Bool.or_eq_true] at hi
    rcases hi with hi | hi
    · exact startsWithL_len hi
    · exact le_trans (ih hi) (by simp)

theorem head?_append_left {l r : PyStr} (h : l ≠ []) :
    (l ++ r).head? = l.head? := by
  rcases l with _ | ⟨a, t⟩
  · exact absurd rfl h
  · rfl

theorem getLast?_append_right {l r : PyStr} (h : r ≠ []) :
    (l ++ r).getLast? = r.getLast? :=
  List.getLast?_append_of_ne_nil _ h

theorem getLast?_trail (x y z : PyStr) (hz : z ≠ []) :
    (x ++ (y ++ z)).getLast? = z.getLast? := by
  have h1 : y ++ z ≠ [] := by
    intro hcon
    rcases List.append_eq_nil.mp hcon with ⟨_, h2⟩
    exact hz h2
  rw [getLast?_append_right h1, getLast?_append_right hz]

theorem head?_append_cases (l r : PyStr) :
    (l ++ r).head? = if l = [] then r.head? else l.head? := by
  rcases l with _ | ⟨a, t⟩ <;> simp

/-! ## Structural facts about the description pipeline -/

/-- `clean_text` output never carries edge whitespace. -/
theorem cleanTextP_strippedOK (nfc : PyStr → PyStr) (v : Option PyStr) :
    strippedOK (cleanTextP nfc v) := by
  rcases v with _ | s
  · exact strippedOK_nil
  · exact pyStrip_strippedOK _

/-- The merged description is stripped (it is a `clean_text` output, an
abbreviation expansion — empty in this variant — or empty). -/
theorem merge_strippedOK (nfc : PyStr → PyStr) (p s : Option PyStr) :
    strippedOK (mergeDescriptions nfc p s).1 := by
  unfold mergeDescriptions expandAbbreviation
  dsimp only
  split
  · split
    · exact strippedOK_nil
    · exact cleanTextP_strippedOK nfc p
  · split
    · split
      · exact strippedOK_nil
      · exact cleanTextP_strippedOK nfc s
    · exact strippedOK_nil

/-- The last step of `build_synthetic_description` yields at least 50
characters whatever the composed text is. -/
theorem lenFillerStep (comp : PyStr) :
    50 ≤ (if comp.length < 50 then comp ++ syntheticFiller else comp).length := by
  by_cases h : comp.length < 50
  · rw [if_pos h, List.length_append]
    have h2 : 50 ≤ syntheticFiller.length := by decide
    omega
  · rw [if_neg h]; omega

/-- The last step of `build_synthetic_description` preserves a non-blank
final character. -/
theorem lastOKFillerStep (comp : PyStr)
    (hc : ∀ x ∈ comp.getLast?, isSpaceC x = false) :
    ∀ x ∈ (if comp.length < 50 then comp ++ syntheticFiller else comp).getLast?,
      isSpaceC x = false := by
  by_cases h : comp.length < 50
  · rw [if_pos h]
    intro x hx
    rw [getLast?_append_right (by decide : syntheticFiller ≠ [])] at hx
    have h3 : syntheticFiller.getLast? = some '.' := by decide
    rw [h3] at hx
    simp only [Option.mem_def, Option.some.injEq] at hx
    subst hx
    decide
  · rw [if_neg h]
    exact hc

/-- The synthetic description is at least 50 characters long (the filler
sentence is appended whenever the composed text is shorter). -/
theorem buildSynthetic_len (nfc : PyStr → PyStr) (r : RawRecord) :
    50 ≤ (buildSyntheticDescription nfc r).length := by
  unfold buildSyntheticDescription
  dsimp only
  exact lenFillerStep _

/-- The synthetic description never ends in whitespace. -/
theorem buildSynthetic_lastOK (nfc : PyStr → PyStr) (r : RawRecord) :
    ∀ x ∈ (buildSyntheticDescription nfc r).getLast?, isSpaceC x = false := by
  unfold buildSyntheticDescription
  dsimp only
  exact lastOKFillerStep _ (pyStrip_strippedOK _).2

/-- A location selected by the series-entry loop is stripped. -/
theorem findEntryFor_strippedOK (num : Nat) (es : List (PyStr × PyStr))
    (loc : PyStr) (hf : findEntryFor num es = some loc) : strippedOK loc := by
  induction es with
  | nil => simp [findEntryFor] at hf
  | cons e t ih =>
    simp only [findEntryFor] at hf
    split at hf
    · simp only [Option.some.injEq] at hf
      subst hf
      exact pyStrip_strippedOK _
    · exact ih hf

/-- When the photo-series rule does not fire, the description is returned
unchanged. -/
theorem pps_not_fired (d : PyStr) (n : Option Nat)
    (h : (parsePhotoSeries d n).2 = false) : (parsePhotoSeries d n).1 = d := by
  unfold parsePhotoSeries at *
  rcases hc : seriesContent d with _ | content
  · rfl
  · rw [hc] at h
    rcases n with _ | num
    · dsimp only at h
      split at h <;> simp at h
    · dsimp only at h
      rcases hf : findEntryFor num (scanEntries content) with _ | loc <;> rw [hf] at h
      · rcases he : scanEntries content with _ | ⟨e, t⟩ <;> rw [he] at h <;> simp at h
      · simp at h

/-- When the photo-series rule fires, the extracted text is stripped (every
branch either strips explicitly or starts and ends with fixed non-blank
literal text). -/
theorem pps_strippedOK (d : PyStr) (n : Option Nat)
    (h : (parsePhotoSeries d n).2 = true) :
    strippedOK (parsePhotoSeries d n).1 := by
  unfold parsePhotoSeries at *
  rcases hc : seriesContent d with _ | content
  · simp only [hc] at h
    exact absurd h (by decide)
  · simp only [hc] at h ⊢
    rcases n with _ | num
    · dsimp only at h ⊢
      split
      · constructor
        · intro a ha
          rw [List.append_assoc, head?_append_cases] at ha
          rw [if_neg (by decide : ¬ (pyS "Reportage photographique: " = []))] at ha
          have h4 : (pyS "Reportage photographique: ").head? = some 'R' := by decide
          rw [h4] at ha
          simp only [Option.mem_def, Option.some.injEq] at ha
          subst ha; decide
        · intro a ha
          rw [List.append_assoc] at ha
          rw [getLast?_trail _ _ _ (by decide : pyS "." ≠ [])] at ha
          have h4 : (pyS ".").getLast? = some '.' := by decide
          rw [h4] at ha
          simp only [Option.mem_def, Option.some.injEq] at ha
          subst ha; decide
      · constructor
        · intro a ha
          rw [head?_append_cases] at ha
          split at ha
          · have h4 : (pyS "...").head? = some '.' := by decide
            rw [h4] at ha
            simp only [Option.mem_def, Option.some.injEq] at ha
            subst ha; decide
          · exact (pyStrip_strippedOK _).1 a ha
        · intro a ha
          rw [getLast?_append_right (by decide : pyS "..." ≠ [])] at ha
          have h4 : (pyS "...").getLast? = some '.' := by decide
          rw [h4] at ha
          simp only [Option.mem_def, Option.some.injEq] at ha
          subst ha; decide
    · dsimp only at h ⊢
      rcases hf : findEntryFor num (scanEntries content) with _ | loc
      · rcases he : scanEntries content with _ | ⟨e, t⟩
        · constructor
          · intro a ha
            rw [head?_append_cases] at ha
            split at ha
            · have : (pyS "...").head? = some '.' := by decide
              rw [this] at ha
              simp only [Option.mem_def, Option.some.injEq] at ha
              subst ha; decide
            · exact (pyStrip_strippedOK _).1 a ha
          · intro a ha
            rw [getLast?_append_right (by decide : pyS "..." ≠ [])] at ha
            have : (pyS "...").getLast? = some '.' := by decide
            rw [this] at ha
            simp only [Option.mem_def, Option.some.injEq] at ha
            subst ha; decide
        · exact pyStrip_strippedOK _
      · exact findEntryFor_strippedOK num _ loc hf

/-- The post-series description (`descStage1`) is stripped. -/
theorem descStage1_strippedOK (nfc : PyStr → PyStr) (rec : RawRecord) :
    strippedOK (descStage1 nfc rec).1 := by
  unfold descStage1
  dsimp only
  rcases h0 : descStage0 nfc rec with ⟨dv0, src0⟩
  have hm : strippedOK dv0 := by
    have := merge_strippedOK nfc (some (cleanTextP nfc rec.description)) (portalDescOf nfc rec)
    unfold descStage0 at h0
    rw [h0] at this
    exact this
  dsimp only
  split
  · rcases hp : (parsePhotoSeries dv0 (extractImageFromFilename (imageFilenameOf rec))).2 with _ | _
    · rw [if_neg (by decide)]
      exact hm
    · rw [if_pos (by decide)]
      exact pps_strippedOK _ _ hp
  · exact hm

theorem pyLowerS_length (s : PyStr) : (pyLowerS s).length = s.length := by
  simp [pyLowerS]

/-- The resolved description always has at least 50 characters: a synthetic
description carries the filler guarantee, and a short non-synthetic one is
always extended (the synthetic continuation, being at least 50 characters,
can never be a substring of a sub-50-character description). -/
theorem resolveDesc_len (nfc : PyStr → PyStr) (rec : RawRecord) :
    50 ≤ (resolveDescription nfc rec).1.length := by
  unfold resolveDescription
  dsimp only
  rcases hds : descStage1 nfc rec with ⟨dv1, src1⟩
  have hstr : strippedOK dv1 := by
    have h2 := descStage1_strippedOK nfc rec
    rw [hds] at h2
    exact h2
  dsimp only
  have hsalen := buildSynthetic_len nfc (recCleanedOf nfc rec)
  have hsalast := buildSynthetic_lastOK nfc (recCleanedOf nfc rec)
  revert hsalen hsalast
  generalize hB : buildSyntheticDescription nfc (recCleanedOf nfc rec) = B
  intro hsalen hsalast
  split
  · exact hsalen
  · rename_i h1
    split
    · rename_i h2
      have hdv1 : dv1 ≠ [] := fun hcon => h1 (Or.inl hcon)
      have hne : B ≠ [] := by
        intro hcon
        rw [hcon] at hsalen
        simp at hsalen
      have hin : pyIn (pyLowerS B) (pyLowerS dv1) = false := by
        rcases hb : pyIn (pyLowerS B) (pyLowerS dv1) with _ | _
        · rfl
        · exfalso
          have h3 := pyIn_len hb
          rw [pyLowerS_length, pyLowerS_length] at h3
          omega
      rw [if_pos ⟨hne, hin⟩]
      dsimp only
      have hself : pyStrip (dv1 ++ pyS ". " ++ B) = dv1 ++ pyS ". " ++ B := by
        apply pyStrip_eq_self
        constructor
        · intro a ha
          rw [head?_append_left (by simp [hdv1] : dv1 ++ pyS ". " ≠ [])] at ha
          rw [head?_append_left hdv1] at ha
          exact hstr.1 a ha
        · intro a ha
          rw [getLast?_append_right hne] at ha
          exact hsalast a ha
      rw [hself]
      rw [List.length_append, List.length_append]
      have h4 : (pyS ". ").length = 2 := by decide
      omega
    · rename_i h2
      dsimp only
      omega

/-- The `description` field of the enriched record is the resolved
description. -/
theorem enrich_desc_eq (nfc : PyStr → PyStr)
    (detect : Option (PyStr → Option PyStr)) (rec : RawRecord) :
    (enrichRecord nfc detect rec).description = (resolveDescription nfc rec).1 := by
  unfold enrichRecord
  rcases h : resolveDescription nfc rec with ⟨desc, src, syn⟩
  dsimp only

/-- The final description of every enriched record has at least 50
characters. -/
theorem enrich_desc_len (nfc : PyStr → PyStr)
    (detect : Option (PyStr → Option PyStr)) (rec : RawRecord) :
    50 ≤ (enrichRecord nfc detect rec).description.length := by
  rw [enrich_desc_eq]
  exact resolveDesc_len nfc rec

/-! ## Facts for the date-normalization claims -/

theorem digit_not_space {c : Char} (h : isDigitC c = true) :
    isSpaceC c = false := by
  rcases hb : isSpaceC c with _ | _
  · rfl
  · exfalso
    unfold isDigitC at h
    unfold isSpaceC at hb
    simp only [Bool.and_eq_true, decide_eq_true_eq] at h
    simp only [Bool.or_eq_true, Bool.and_eq_true, decide_eq_true_eq] at hb
    omega

theorem strip_of_digits {s : PyStr} (h : ∀ c ∈ s, isDigitC c = true) :
    pyStrip s = s := by
  apply pyStrip_eq_self
  constructor
  · intro a ha
    exact digit_not_space (h a (List.mem_of_mem_head? ha))
  · intro a ha
    exact digit_not_space (h a (List.mem_of_mem_getLast? ha))

theorem normalizeYear_range {s : PyStr} (hd : ∀ c ∈ s, isDigitC c = true)
    {t : PyStr} (h : normalizeYear s = some t) :
    ∃ y : Nat, 1800 ≤ y ∧ y ≤ 2100 ∧ t = natDigits y := by
  unfold normalizeYear at h
  rw [strip_of_digits hd] at h
  rcases hs : s with _ | ⟨c, ds⟩
  · rw [hs] at h; simp at h
  · rw [hs] at h
    rw [if_neg (by simp)] at h
    have hc : isDigitC c = true := hd c (by rw [hs]; simp)
    have hplus : c ≠ '+' := by
      intro he; subst he; exact absurd hc (by decide)
    have hminus : c ≠ '-' := by
      intro he; subst he; exact absurd hc (by decide)
    have hall : (c :: ds) ≠ [] ∧ (c :: ds).all isDigitC = true := by
      refine ⟨by simp, ?_⟩
      rw [List.all_eq_true]
      intro x hx
      exact hd x (by rw [hs]; exact hx)
    rw [show pyIntL (c :: ds) = digitsToInt (c :: ds) by
          unfold pyIntL; dsimp only; rw [if_neg hplus, if_neg hminus]] at h
    rw [show digitsToInt (c :: ds) = some (digitsValL (c :: ds) : Int) by
          unfold digitsToInt
          rw [if_pos (by simp [hall.2])]] at h
    dsimp only at h
    split at h
    · split at h
      · rename_i h100 hrange
        simp only [Option.some.injEq] at h
        refine ⟨_, ?_, ?_, h.symm⟩ <;> omega
      · simp at h
    · split at h
      · rename_i h100 hrange
        simp only [Option.some.injEq] at h
        refine ⟨_, ?_, ?_, h.symm⟩ <;> omega
      · simp at h

theorem parseDate_bare4 (c1 c2 c3 c4 : Char) (h1 : isDigitC c1 = true)
    (h2 : isDigitC c2 = true) (h3 : isDigitC c3 = true)
    (h4 : isDigitC c4 = true) :
    parseDate [c1, c2, c3, c4] = some [c1, c2, c3, c4] := by
  unfold parseDate
  rw [if_neg (by simp)]
  have hstrip : pyStrip [c1, c2, c3, c4] = [c1, c2, c3, c4] := by
    apply strip_of_digits
    intro c hc
    simp only [List.mem_cons, List.not_mem_nil, or_false] at hc
    rcases hc with rfl | rfl | rfl | rfl <;> assumption
  have hp4 : parse4dC [c1, c2, c3, c4] = some ([c1, c2, c3, c4], []) := by
    unfold parse4dC
    dsimp only
    rw [if_pos (by simp [h1, h2, h3, h4])]
  have hdec : decadeStage [c1, c2, c3, c4] = none := by
    unfold decadeStage
    dsimp only
    rw [if_neg]
    rintro ⟨hor, _⟩
    rcases hor with he | he
    · rw [he] at h1; exact absurd h1 (by decide)
    · rw [he] at h1; exact absurd h1 (by decide)
  have hran : rangeStage [c1, c2, c3, c4] = none := by
    unfold rangeStage
    rw [hp4]
    rfl
  have hr2 : range2Stage [c1, c2, c3, c4] = none := by
    unfold range2Stage
    rw [hp4]
    rfl
  have hyr : yearStage [c1, c2, c3, c4] = some [c1, c2, c3, c4] := by
    unfold yearStage
    rw [hp4]
  rw [hstrip]
  dsimp only
  rw [hdec, hran, hr2, hyr]
  rfl

/-! ## Claim C1 -/

/-- C1 (corrected): `parse_date` does **not** reject out-of-range years at
every stage.  The `[1800, 2100]` validation lives only in `normalize_year`
(first conjunct) and in the last-resort embedded-year scan; the bare
4-digit-year stage passes any four digits through unchanged (second
conjunct), and the decade, range, and keyword-free French stages likewise
emit unchecked years. -/
theorem claim_C1 :
    (∀ s : PyStr, (∀ c ∈ s, isDigitC c = true) → ∀ t, normalizeYear s = some t →
        ∃ y : Nat, 1800 ≤ y ∧ y ≤ 2100 ∧ t = natDigits y) ∧
    (∀ c1 c2 c3 c4 : Char, isDigitC c1 = true → isDigitC c2 = true →
        isDigitC c3 = true → isDigitC c4 = true →
        parseDate [c1, c2, c3, c4] = some [c1, c2, c3, c4]) :=
  ⟨fun _ hd _ h => normalizeYear_range hd h,
   fun c1 c2 c3 c4 h1 h2 h3 h4 => parseDate_bare4 c1 c2 c3 c4 h1 h2 h3 h4⟩

/-- C1 counterexample: the year 9999 lies outside `[1800, 2100]`, yet
`parse_date("9999")` returns `"9999"` rather than `None` — the bare-year
stage never applies the range check. -/
theorem claim_C1_counterexample :
    parseDate (pyS "9999") = some (pyS "9999") := by decide

/-- C1 witness: the theorem applied at `normalize_year("36") = "1936"` and at
the in-range bare year `"2042"`. -/
theorem claim_C1_witness :
    (∃ y : Nat, 1800 ≤ y ∧ y ≤ 2100 ∧ natDigits 1936 = natDigits y) ∧
    parseDate ['2', '0', '4', '2'] = some ['2', '0', '4', '2'] :=
  ⟨claim_C1.1 (pyS "36") (by decide) (natDigits 1936) (by decide),
   claim_C1.2 '2' '0' '4' '2' (by decide) (by decide) (by decide) (by decide)⟩

/-! ## Claims C3, C4, C7, C9 -/

/-- The record carries no description source at all: no name, no scraped
description, no attributes, no portal record. -/
def allSourcesEmpty (rec : RawRecord) : Prop :=
  rec.name = none ∧ rec.description = none ∧ rec.attributes = [] ∧
    rec.portal_record = none

instance (rec : RawRecord) : Decidable (allSourcesEmpty rec) := by
  unfold allSourcesEmpty
  infer_instance

/-- C3 (confirmed): whenever the record carries any source field at all, the
enriched description ends up with at least 50 characters (in fact the
pipeline guarantees this for every record, so the `len == 0` direction of
the claim holds vacuously: a length below 50 — in particular 0 — never
occurs). -/
theorem claim_C3 (nfc : PyStr → PyStr) (detect : Option (PyStr → Option PyStr))
    (rec : RawRecord) (h : ¬ allSourcesEmpty rec) :
    50 ≤ (enrichRecord nfc detect rec).description.length :=
  enrich_desc_len nfc detect rec

/-- C3 witness: a record with a name but no description text. -/
theorem claim_C3_witness :
    50 ≤ (enrichRecord pyId none
      { name := some (pyS "Vue de la rue Notre-Dame") }).description.length :=
  claim_C3 pyId none { name := some (pyS "Vue de la rue Notre-Dame") }
    (by decide)

/-- The end-to-end record of claim C4: scraped description `"S/O"`, blank
portal description, name `"Parc Lafontaine"`, one `Date := "1966"`
attribute. -/
def c4Record : RawRecord :=
  { name := some (pyS "Parc Lafontaine")
    description := some (pyS "S/O")
    attributes := [.obj (some (pyS "Date")) (some (pyS "1966"))]
    portal_record := some { descriptionF := some (some (pyS "")) } }

/-- C4 (confirmed): `"S/O"` is recognised as a null-content abbreviation and
expanded to the empty string, so the pipeline synthesizes a description from
the name and the Date attribute; the provenance is `"synthetic"` and the
`"synthetic-description"` quality flag is set.  (`nfc := pyId` because every
string of this record is NFC-stable.) -/
theorem claim_C4 :
    pyIn (pyS "Parc Lafontaine") (enrichRecord pyId none c4Record).description = true ∧
    pyIn (pyS "1966") (enrichRecord pyId none c4Record).description = true ∧
    (enrichRecord pyId none c4Record).description_source = pyS "synthetic" ∧
    pyS "synthetic-description" ∈ (enrichRecord pyId none c4Record).quality_flags := by
  refine ⟨by decide, by decide, by decide, by decide⟩

/-- The docstring example of `parse_photo_series` (clean_metadata.py lines
63-69): only the first location annotates its range with the `images`
keyword. -/
def photoSeriesDocExample : PyStr :=
  pyS "Le reportage photographique comprend les lieux et bâtiments suivants :\n Vieux Montréal (images 1-4)\n Basilique Notre-Dame (5-7)\n Place Victoria (8-10)"

/-- C7 (code bug): on the function's own docstring example the docstring
promises `"Place Victoria"` for image 8, but the entry regex requires the
literal `image`/`images` keyword inside the parentheses, so `(5-7)` and
`(8-10)` are never recognised as entries; image 8 misses the only parsed
range `1-4` and the code falls back to the *first* entry, returning
`"Vieux Montréal"` (with the series flag set). -/
theorem claim_C7 :
    parsePhotoSeries photoSeriesDocExample (some 8) = (pyS "Vieux Montréal", true) ∧
    (parsePhotoSeries photoSeriesDocExample (some 8)).1 ≠ pyS "Place Victoria" := by
  refine ⟨by decide, by decide⟩

/-- C9 (confirmed): the language classifier returns `"unknown"` for every
text shorter than 24 characters, whatever the (optional) probabilistic
detector does; and in the record enricher a final description below 24
characters would be classified `"unknown"` — vacuously so, because the final
description always has at least 50 characters. -/
theorem claim_C9 :
    (∀ (detect : Option (PyStr → Option PyStr)) (s : PyStr), s.length < 24 →
        detectLanguageLabel detect s = pyS "unknown") ∧
    (∀ (nfc : PyStr → PyStr) (detect : Option (PyStr → Option PyStr))
        (rec : RawRecord),
        24 ≤ (enrichRecord nfc detect rec).description.length ∨
          (enrichRecord nfc detect rec).description_language = pyS "unknown") := by
  constructor
  · intro detect s h
    unfold detectLanguageLabel
    rw [if_pos]
    right
    exact h
  · intro nfc detect rec
    left
    have h := enrich_desc_len nfc detect rec
    omega

/-- C9 witness: a 21-character English text is classified `"unknown"`, and a
concrete record's final description is at least 24 characters long. -/
theorem claim_C9_witness :
    detectLanguageLabel none (pyS "the street and avenue") = pyS "unknown" ∧
    (24 ≤ (enrichRecord pyId none c4Record).description.length ∨
      (enrichRecord pyId none c4Record).description_language = pyS "unknown") :=
  ⟨claim_C9.1 none (pyS "the street and avenue") (by decide),
   claim_C9.2 pyId none c4Record⟩

/-! ## Claim C2: idempotence of the text normalizer -/

theorem replChar_space (c : Char) : isSpaceC (replChar c) = isSpaceC c := by
  unfold replChar
  by_cases h1 : c.toNat = 0x2019
  · rw [if_pos h1]
    unfold isSpaceC
    rw [h1]
    decide
  · rw [if_neg h1]
    by_cases h2 : c.toNat = 0x2013
    · rw [if_pos h2]
      unfold isSpaceC
      rw [h2]
      decide
    · rw [if_neg h2]
      by_cases h3 : c.toNat = 0x2014
      · rw [if_pos h3]
        unfold isSpaceC
        rw [h3]
        decide
      · rw [if_neg h3]

theorem replChar_idem (c : Char) : replChar (replChar c) = replChar c := by
  unfold replChar
  by_cases h1 : c.toNat = 0x2019
  · rw [if_pos h1]; decide
  · rw [if_neg h1]
    by_cases h2 : c.toNat = 0x2013
    · rw [if_pos h2]; decide
    · rw [if_neg h2]
      by_cases h3 : c.toNat = 0x2014
      · rw [if_pos h3]; decide
      · rw [if_neg h3, if_neg h1, if_neg h2, if_neg h3]

theorem map_replChar_idem (s : PyStr) :
    (s.map replChar).map replChar = s.map replChar := by
  rw [List.map_map]
  apply List.map_congr_left
  intro c _
  exact replChar_idem c

theorem collapseWs_eq_nil : collapseWs [] = [] := rfl

theorem collapseWs_eq_w1 {a : Char} (ha : isSpaceC a = true) :
    collapseWs [a] = [' '] := by
  conv_lhs => unfold collapseWs
  rw [if_pos ha]

theorem collapseWs_eq_ww {a b : Char} {tb : PyStr} (ha : isSpaceC a = true)
    (hb : isSpaceC b = true) :
    collapseWs (a :: b :: tb) = collapseWs (b :: tb) := by
  conv_lhs => unfold collapseWs
  rw [if_pos ha]
  dsimp only
  rw [if_pos hb]

theorem collapseWs_eq_wn {a b : Char} {tb : PyStr} (ha : isSpaceC a = true)
    (hb : isSpaceC b = false) :
    collapseWs (a :: b :: tb) = ' ' :: collapseWs (b :: tb) := by
  conv_lhs => unfold collapseWs
  rw [if_pos ha]
  dsimp only
  rw [if_neg (by simp [hb])]

theorem collapseWs_eq_n {a : Char} {t : PyStr} (ha : isSpaceC a = false) :
    collapseWs (a :: t) = a :: collapseWs t := by
  conv_lhs => unfold collapseWs
  rw [if_neg (by simp [ha])]

theorem dropWhile_map_repl (s : PyStr) :
    (s.map replChar).dropWhile isSpaceC = (s.dropWhile isSpaceC).map replChar := by
  induction s with
  | nil => rfl
  | cons a t ih =>
    simp only [List.map_cons, List.dropWhile_cons, replChar_space]
    by_cases ha : isSpaceC a
    · rw [if_pos ha, if_pos ha, ih]
    · rw [if_neg ha, if_neg ha, List.map_cons]

theorem trimEnd_map_repl (s : PyStr) :
    trimEndC (s.map replChar) = (trimEndC s).map replChar := by
  induction s with
  | nil => rfl
  | cons a t ih =>
    simp only [List.map_cons, trimEndC, ih, replChar_space]
    by_cases hr : trimEndC t = []
    · rw [hr]
      simp only [List.map_nil]
      by_cases ha : isSpaceC a
      · rw [if_pos (by simp [ha]), if_pos (by simp [ha])]
        rfl
      · rw [if_neg (by simp [ha]), if_neg (by simp [ha]), List.map_cons,
          List.map_nil]
    · rw [if_neg (by simp [hr]), if_neg (by simp [hr]), List.map_cons]

theorem collapse_map_repl (s : PyStr) :
    collapseWs (s.map replChar) = (collapseWs s).map replChar := by
  induction s with
  | nil => rfl
  | cons a t ih =>
    by_cases ha : isSpaceC a = true
    · have ha' : isSpaceC (replChar a) = true := by rw [replChar_space]; exact ha
      rcases t with _ | ⟨b, tb⟩
      · simp only [List.map_cons, List.map_nil]
        rw [collapseWs_eq_w1 ha', collapseWs_eq_w1 ha]
        decide
      · by_cases hb : isSpaceC b = true
        · have hb' : isSpaceC (replChar b) = true := by rw [replChar_space]; exact hb
          simp only [List.map_cons] at ih ⊢
          rw [collapseWs_eq_ww ha' hb', collapseWs_eq_ww ha hb]
          exact ih
        · have hbf : isSpaceC b = false := by simpa using hb
          have hb' : isSpaceC (replChar b) = false := by rw [replChar_space]; exact hbf
          simp only [List.map_cons] at ih ⊢
          rw [collapseWs_eq_wn ha' hb', collapseWs_eq_wn ha hbf]
          rw [List.map_cons, ih]
          rfl
    · have haf : isSpaceC a = false := by simpa using ha
      have ha' : isSpaceC (replChar a) = false := by rw [replChar_space]; exact haf
      simp only [List.map_cons]
      rw [collapseWs_eq_n ha', collapseWs_eq_n haf, List.map_cons, ih]

theorem strip_map_repl (s : PyStr) :
    pyStrip (s.map replChar) = (pyStrip s).map replChar := by
  unfold pyStrip
  rw [dropWhile_map_repl, trimEnd_map_repl]

/-- Whitespace normal form: every whitespace character is a single ASCII
space not followed by another whitespace character. -/
def wsNorm : PyStr → Bool
  | [] => true
  | a :: t =>
    ((!isSpaceC a) ||
      (a = ' ' && match t with
                  | b :: _ => !isSpaceC b
                  | [] => true)) && wsNorm t

theorem wsNorm_tail {a : Char} {t : PyStr} (h : wsNorm (a :: t) = true) :
    wsNorm t = true := by
  unfold wsNorm at h
  simp only [Bool.and_eq_true] at h
  exact h.2

theorem wsNorm_cons_nonws {a : Char} {t : PyStr} (ha : isSpaceC a = false)
    (ht : wsNorm t = true) : wsNorm (a :: t) = true := by
  unfold wsNorm
  simp [ha, ht]

/-- The head of a collapsed string is whitespace only if it is `' '` and the
source head was whitespace; structurally we only need: collapsing a
nonws-headed string keeps the head. -/
theorem collapse_wsNorm (s : PyStr) : wsNorm (collapseWs s) = true := by
  induction s with
  | nil => rfl
  | cons a t ih =>
    by_cases ha : isSpaceC a = true
    · rcases t with _ | ⟨b, tb⟩
      · rw [collapseWs_eq_w1 ha]
        decide
      · by_cases hb : isSpaceC b = true
        · rw [collapseWs_eq_ww ha hb]
          exact ih
        · have hbf : isSpaceC b = false := by simpa using hb
          rw [collapseWs_eq_wn ha hbf]
          rw [collapseWs_eq_n hbf] at ih ⊢
          unfold wsNorm
          simp only [Bool.and_eq_true]
          constructor
          · simp [hbf]
          · exact ih
    · have haf : isSpaceC a = false := by simpa using ha
      rw [collapseWs_eq_n haf]
      apply wsNorm_cons_nonws haf ih

theorem collapse_of_wsNorm {s : PyStr} (h : wsNorm s = true) :
    collapseWs s = s := by
  induction s with
  | nil => rfl
  | cons a t ih =>
    have ht := wsNorm_tail h
    by_cases ha : isSpaceC a = true
    · unfold wsNorm at h
      simp only [Bool.and_eq_true, Bool.or_eq_true] at h
      rcases h.1 with hfa | hfa
      · simp [ha] at hfa
      · rcases t with _ | ⟨b, tb⟩
        · rw [collapseWs_eq_w1 ha]
          have ha' : a = ' ' := by simpa using hfa.1
          rw [ha']
        · have hbf : isSpaceC b = false := by simpa using hfa.2
          rw [collapseWs_eq_wn ha hbf]
          have ha' : a = ' ' := by simpa using hfa.1
          rw [ha', ih ht]
    · have haf : isSpaceC a = false := by simpa using ha
      rw [collapseWs_eq_n haf, ih ht]

theorem wsNorm_dropWhile {s : PyStr} (h : wsNorm s = true) :
    wsNorm (s.dropWhile isSpaceC) = true := by
  induction s with
  | nil => exact h
  | cons a t ih =>
    rw [List.dropWhile_cons]
    by_cases ha : isSpaceC a = true
    · rw [if_pos ha]
      exact ih (wsNorm_tail h)
    · rw [if_neg ha]
      exact h

theorem wsNorm_trimEnd {s : PyStr} (h : wsNorm s = true) :
    wsNorm (trimEndC s) = true := by
  induction s with
  | nil => exact h
  | cons a t ih =>
    have htt := ih (wsNorm_tail h)
    simp only [trimEndC]
    by_cases hcond : (trimEndC t = [] && isSpaceC a) = true
    · rw [if_pos hcond]
      rfl
    · rw [if_neg hcond]
      by_cases ha : isSpaceC a = true
      · -- then `trimEndC t ≠ []`, and its head is the head of `t`, which the
        -- normal form forces to be non-whitespace
        have hne : trimEndC t ≠ [] := by
          intro he
          exact hcond (by simp [he, ha])
        unfold wsNorm at h
        simp only [Bool.and_eq_true, Bool.or_eq_true] at h
        rcases h.1 with hfa | hfa
        · simp [ha] at hfa
        · rcases t with _ | ⟨c, t'⟩
          · simp [trimEndC] at hne
          · rcases trimEnd_head c t' with he | ⟨r, he⟩
            · exact absurd he hne
            · rw [he]
              unfold wsNorm
              simp only [Bool.and_eq_true, Bool.or_eq_true]
              refine ⟨Or.inr ?_, ?_⟩
              · have hc : isSpaceC c = false := by simpa using hfa.2
                have ha1 : a = ' ' := by simpa using hfa.1
                subst ha1
                simp [hc]
              · rw [he] at htt
                exact htt
      · have haf : isSpaceC a = false := by simpa using ha
        exact wsNorm_cons_nonws haf htt

/-- Idempotence of the legacy `clean_text` (NFC → replacements → whitespace
collapse → strip).  `hnil` and `H1` axiomatize the two facts about real NFC
this needs: NFC of the empty string is empty, and NFC is the identity on
strings that are already `clean_text` outputs (such strings are NFC by
construction: NFC output post-processed only by character substitutions and
whitespace removal that cannot create new composable sequences). -/
theorem cleanTextL_idem (nfc : PyStr → PyStr) (hnil : nfc [] = [])
    (H1 : ∀ s : PyStr, nfc (cleanTextL nfc (some s)) = cleanTextL nfc (some s))
    (v : Option PyStr) :
    cleanTextL nfc (some (cleanTextL nfc v)) = cleanTextL nfc v := by
  rcases v with _ | s
  · show pyStrip (collapseWs ((nfc []).map replChar)) = []
    rw [hnil]
    rfl
  · show pyStrip (collapseWs ((nfc (cleanTextL nfc (some s))).map replChar)) =
      cleanTextL nfc (some s)
    rw [H1 s]
    have hrepl : (cleanTextL nfc (some s)).map replChar = cleanTextL nfc (some s) := by
      show (pyStrip (collapseWs ((nfc s).map replChar))).map replChar =
        pyStrip (collapseWs ((nfc s).map replChar))
      rw [← strip_map_repl, ← collapse_map_repl, map_replChar_idem]
    rw [hrepl]
    have hwn : wsNorm (cleanTextL nfc (some s)) = true := by
      show wsNorm (pyStrip (collapseWs ((nfc s).map replChar))) = true
      unfold pyStrip
      exact wsNorm_trimEnd (wsNorm_dropWhile (collapse_wsNorm _))
    rw [collapse_of_wsNorm hwn]
    exact pyStrip_eq_self _
      (pyStrip_strippedOK (collapseWs ((nfc s).map replChar)))

/-- C2 (corrected): the claim fails for the pipelines `clean_text` (see the
counterexample); the amended statement is that the *legacy* normalizer —
exactly NFC, typographic replacement, whitespace collapse, trim, with no
boilerplate stripping — is idempotent for every input including null.
`hnil`/`H1` capture the NFC facts the real `unicodedata.normalize` satisfies
(identity on the empty string and on already-clean outputs). -/
theorem claim_C2 (nfc : PyStr → PyStr) (hnil : nfc [] = [])
    (H1 : ∀ s : PyStr, nfc (cleanTextL nfc (some s)) = cleanTextL nfc (some s))
    (v : Option PyStr) :
    cleanTextL nfc (some (cleanTextL nfc v)) = cleanTextL nfc v :=
  cleanTextL_idem nfc hnil H1 v

/-- The doubled-boilerplate input on which the pipelines `clean_text` is not
idempotent. -/
def doubledSansObjet : PyStr :=
  pyS "Sans objet (aucune description fournie). Sans objet (aucune description fournie). Vue du parc."

/-- C2 counterexample: the pipelines `clean_text` removes exactly one
leading "Sans objet (aucune description fournie)." per application, so on a
doubled prefix a second application changes the result again —
`normalize(normalize(x)) ≠ normalize(x)`.  (`nfc := pyId`: the input is
ASCII, hence NFC-stable.) -/
theorem claim_C2_counterexample :
    cleanTextP pyId (some (cleanTextP pyId (some doubledSansObjet))) ≠
      cleanTextP pyId (some doubledSansObjet) := by decide

/-- C2 witness: the amended idempotence applied at `nfc := pyId` and a
concrete string with internal whitespace runs. -/
theorem claim_C2_witness :
    cleanTextL pyId (some (cleanTextL pyId (some (pyS "  Vue   du parc  ")))) =
      cleanTextL pyId (some (pyS "  Vue   du parc  ")) :=
  claim_C2 pyId rfl (fun _ => rfl) (some (pyS "  Vue   du parc  "))

/-! ## Claim C5: the `attributes_map` invariant -/

/-- Specification-side reading of the ordered attribute list: the value of
the **last** entry whose `trait_type` equals `k` (skipping non-dict
entries). -/
def lastTraitValue : List AttrEntry → Option PyStr → Option (Option PyStr)
  | [], _ => none
  | .obj t v :: rest, k =>
    match lastTraitValue rest k with
    | some w => some w
    | none => if t = k then some v else none
  | .nonDict :: rest, k => lastTraitValue rest k

theorem lastTraitValue_obj (t v : Option PyStr) (rest : List AttrEntry)
    (k : Option PyStr) :
    lastTraitValue (AttrEntry.obj t v :: rest) k =
      match lastTraitValue rest k with
      | some w => some w
      | none => if t = k then some v else none := rfl

theorem lastTraitValue_nonDict (rest : List AttrEntry) (k : Option PyStr) :
    lastTraitValue (AttrEntry.nonDict :: rest) k = lastTraitValue rest k := rfl

theorem dictUpsert_lookup (m : List (Option PyStr × Option PyStr))
    (k t : Option PyStr) (v : Option PyStr) :
    lookupPairs (dictUpsert m t v) k =
      if t = k then some v else lookupPairs m k := by
  induction m with
  | nil =>
    unfold dictUpsert lookupPairs
    by_cases h : t = k
    · rw [if_pos h]
      simp [List.find?, h]
    · rw [if_neg h]
      simp [List.find?, h]
  | cons p rest ih =>
    rcases p with ⟨k1, v1⟩
    unfold dictUpsert
    by_cases h1 : k1 = t
    · rw [if_pos h1]
      unfold lookupPairs
      by_cases h2 : t = k
      · rw [if_pos h2]
        simp [List.find?_cons, h1, h2]
      · rw [if_neg h2]
        have h3 : (decide (k1 = k)) = false := by
          simp only [decide_eq_false_iff_not]
          rw [h1]
          exact h2
        simp [List.find?_cons, h3]
    · rw [if_neg h1]
      by_cases h2 : t = k
      · rw [if_pos h2]
        by_cases h3 : k1 = k
        · exact absurd (h3.trans h2.symm) h1
        · unfold lookupPairs
          simp only [List.find?_cons, decide_eq_false h3, Bool.false_eq_true]
          have := ih
          rw [if_pos h2] at this
          exact this
      · rw [if_neg h2]
        by_cases h3 : k1 = k
        · unfold lookupPairs
          simp [List.find?_cons, h3]
        · unfold lookupPairs
          simp only [List.find?_cons, decide_eq_false h3, Bool.false_eq_true]
          have := ih
          rw [if_neg h2] at this
          exact this

theorem attrMap_fold_lookup (attrs : List AttrEntry)
    (m : List (Option PyStr × Option PyStr)) (k : Option PyStr) :
    lookupPairs
        (attrs.foldl
          (fun m e =>
            match e with
            | .obj t v => dictUpsert m t v
            | .nonDict => m)
          m) k =
      match lastTraitValue attrs k with
      | some w => some w
      | none => lookupPairs m k := by
  induction attrs generalizing m with
  | nil => rfl
  | cons e rest ih =>
    rcases e with ⟨t, v⟩ | _
    · simp only [List.foldl_cons]
      rw [ih, lastTraitValue_obj]
      rcases hl : lastTraitValue rest k with _ | w
      · dsimp only
        rw [dictUpsert_lookup]
        by_cases ht : t = k
        · rw [if_pos ht, if_pos ht]
        · rw [if_neg ht, if_neg ht]
      · rfl
    · simp only [List.foldl_cons]
      rw [ih, lastTraitValue_nonDict]

/-- `attr_map` lookups read the last-seen raw value. -/
theorem attrMapOf_lookup (attrs : List AttrEntry) (k : Option PyStr) :
    lookupPairs (attrMapOf attrs) k =
      match lastTraitValue attrs k with
      | some w => some w
      | none => none :=
  attrMap_fold_lookup attrs [] k

theorem attrClean_key {nfc : PyStr → PyStr} {p : Option PyStr × Option PyStr}
    {y : Option PyStr × PyStr} (h : attrClean nfc p = some y) : y.1 = p.1 := by
  unfold attrClean at h
  rcases p with ⟨k1, _ | s⟩
  · simp at h
  · dsimp only at h
    split at h
    · simp only [Option.some.injEq] at h
      rw [← h]
    · simp at h

theorem keys_filterMap_sub {nfc : PyStr → PyStr}
    {m : List (Option PyStr × Option PyStr)} {x : Option PyStr}
    (h : x ∈ (m.filterMap (attrClean nfc)).map Prod.fst) :
    x ∈ m.map Prod.fst := by
  induction m with
  | nil => simpa using h
  | cons p rest ih =>
    rw [List.filterMap_cons] at h
    rcases hc : attrClean nfc p with _ | y <;> rw [hc] at h
    · simp only [List.map_cons, List.mem_cons]
      exact Or.inr (ih h)
    · simp only [List.map_cons, List.mem_cons] at h ⊢
      rcases h with h | h
      · left
        rw [h, attrClean_key hc]
      · exact Or.inr (ih h)

theorem lookup_none_of_not_mem {α : Type}
    {m : List (Option PyStr × α)} {k : Option PyStr}
    (h : k ∉ m.map Prod.fst) : lookupPairs m k = none := by
  induction m with
  | nil => rfl
  | cons p rest ih =>
    simp only [List.map_cons, List.mem_cons, not_or] at h
    unfold lookupPairs
    rw [List.find?_cons_of_neg _ (by
      simp only [decide_eq_true_eq]
      intro he
      exact h.1 (by rw [he]))]
    exact ih h.2

theorem lookup_filterMap_attrClean (nfc : PyStr → PyStr)
    (m : List (Option PyStr × Option PyStr))
    (hnd : (m.map Prod.fst).Nodup) (k : Option PyStr) :
    lookupPairs (m.filterMap (attrClean nfc)) k =
      match lookupPairs m k with
      | some (some s) => if s ≠ [] then some (cleanTextP nfc (some s)) else none
      | _ => none := by
  induction m with
  | nil => rfl
  | cons p rest ih =>
    rcases p with ⟨k1, val⟩
    have hnd2 : k1 ∉ rest.map Prod.fst ∧ (rest.map Prod.fst).Nodup := by
      rw [List.map_cons] at hnd
      exact List.nodup_cons.mp hnd
    have hk1 : k1 ∉ rest.map Prod.fst := hnd2.1
    have hndr : (rest.map Prod.fst).Nodup := hnd2.2
    by_cases hkk : k1 = k
    · subst hkk
      have hlm : lookupPairs ((k1, val) :: rest) k1 = some val := by
        unfold lookupPairs
        rw [List.find?_cons_of_pos _ (by simp)]
        rfl
      rw [hlm]
      rcases val with _ | s
      · rw [List.filterMap_cons]
        show lookupPairs
          (match attrClean nfc (k1, none) with
           | none => rest.filterMap (attrClean nfc)
           | some b => b :: rest.filterMap (attrClean nfc)) k1 = none
        dsimp only [attrClean]
        apply lookup_none_of_not_mem
        intro hmem
        exact hk1 (keys_filterMap_sub hmem)
      · rw [List.filterMap_cons]
        by_cases hs : s = []
        · subst hs
          rw [show attrClean nfc (k1, some ([] : PyStr)) = none by
                unfold attrClean; simp]
          dsimp only
          rw [if_neg (by simp)]
          apply lookup_none_of_not_mem
          intro hmem
          exact hk1 (keys_filterMap_sub hmem)
        · rw [show attrClean nfc (k1, some s) = some (k1, cleanTextP nfc (some s)) by
                unfold attrClean; simp [hs]]
          dsimp only
          rw [if_pos (by simp [hs])]
          unfold lookupPairs
          rw [List.find?_cons_of_pos _ (by simp)]
          rfl
    · have hlm : lookupPairs ((k1, val) :: rest) k =
          lookupPairs rest k := by
        unfold lookupPairs
        rw [List.find?_cons_of_neg _ (by simp [hkk])]
      rw [hlm, List.filterMap_cons]
      rcases hc : attrClean nfc (k1, val) with _ | y
      · exact ih hndr
      · have hy : y.1 = k1 := attrClean_key hc
        dsimp only
        have hskip : lookupPairs (y :: rest.filterMap (attrClean nfc)) k =
            lookupPairs (rest.filterMap (attrClean nfc)) k := by
          unfold lookupPairs
          rw [List.find?_cons_of_neg _ (by simp [hy, hkk])]
        rw [hskip]
        exact ih hndr

theorem mem_keys_dictUpsert {m : List (Option PyStr × Option PyStr)}
    {t v x : Option PyStr}
    (h : x ∈ (dictUpsert m t v).map Prod.fst) :
    x ∈ m.map Prod.fst ∨ x = t := by
  induction m with
  | nil =>
    simp only [dictUpsert, List.map_cons, List.map_nil, List.mem_singleton] at h
    exact Or.inr h
  | cons p rest ih =>
    rcases p with ⟨k1, v1⟩
    unfold dictUpsert at h
    by_cases h1 : k1 = t
    · rw [if_pos h1] at h
      simp only [List.map_cons, List.mem_cons] at h ⊢
      rcases h with h | h
      · exact Or.inl (Or.inl h)
      · exact Or.inl (Or.inr h)
    · rw [if_neg h1] at h
      simp only [List.map_cons, List.mem_cons] at h ⊢
      rcases h with h | h
      · exact Or.inl (Or.inl h)
      · rcases ih h with h2 | h2
        · exact Or.inl (Or.inr h2)
        · exact Or.inr h2

theorem dictUpsert_nodup {m : List (Option PyStr × Option PyStr)}
    {t v : Option PyStr} (h : (m.map Prod.fst).Nodup) :
    ((dictUpsert m t v).map Prod.fst).Nodup := by
  induction m with
  | nil => simp [dictUpsert]
  | cons p rest ih =>
    rcases p with ⟨k1, v1⟩
    rw [List.map_cons, List.nodup_cons] at h
    unfold dictUpsert
    by_cases h1 : k1 = t
    · rw [if_pos h1]
      rw [List.map_cons, List.nodup_cons]
      exact h
    · rw [if_neg h1]
      rw [List.map_cons, List.nodup_cons]
      constructor
      · intro hmem
        rcases mem_keys_dictUpsert hmem with h2 | h2
        · exact h.1 h2
        · exact h1 h2
      · exact ih h.2

theorem attrMap_fold_nodup (attrs : List AttrEntry)
    (m : List (Option PyStr × Option PyStr)) (h : (m.map Prod.fst).Nodup) :
    ((attrs.foldl
        (fun m e =>
          match e with
          | .obj t v => dictUpsert m t v
          | .nonDict => m)
        m).map Prod.fst).Nodup := by
  induction attrs generalizing m with
  | nil => exact h
  | cons e rest ih =>
    rcases e with ⟨t, v⟩ | _
    · exact ih _ (dictUpsert_nodup h)
    · exact ih _ h

theorem attrMapOf_nodup (attrs : List AttrEntry) :
    ((attrMapOf attrs).map Prod.fst).Nodup :=
  attrMap_fold_nodup attrs [] (by simp)

/-- C5 (corrected): `attributes_map` resolves duplicate `trait_type`s to the
last-seen raw value and keeps exactly the entries whose *raw* value is
non-null and non-empty, storing `clean_text` of that value.  Because the
filter tests the raw value rather than the cleaned one, a stored value may
itself be empty (whitespace-only raw values clean to `""`), which refutes
the `non-empty cleaned values` half of the claim. -/
theorem claim_C5 (nfc : PyStr → PyStr) (attrs : List AttrEntry)
    (k : Option PyStr) :
    lookupPairs (attributesMapOf nfc attrs) k =
      match lastTraitValue attrs k with
      | some (some v) => if v ≠ [] then some (cleanTextP nfc (some v)) else none
      | _ => none := by
  unfold attributesMapOf
  rw [lookup_filterMap_attrClean nfc _ (attrMapOf_nodup attrs) k,
    attrMapOf_lookup]
  rcases lastTraitValue attrs k with _ | (_ | v) <;> rfl

/-- C5 counterexample: an attribute whose raw value is the single space
`" "` is truthy, so it is kept, but its cleaned value is the empty string —
`attributes_map` then contains an empty value, contradicting the claim. -/
theorem claim_C5_counterexample :
    lookupPairs
        (attributesMapOf pyId [.obj (some (pyS "Date")) (some (pyS " "))])
        (some (pyS "Date")) = some [] := by decide

/-! ## Claim C6: a malformed line aborts the run -/

/-- C6 (corrected): `iterate_records` does not catch `json.JSONDecodeError`,
so the first malformed (non-blank, undecodable) line ends the run with the
propagated error; only the records before it are processed and everything
after it is dropped. -/
theorem processLines_cons (decode : PyStr → Except PyStr RawRecord)
    (nfc : PyStr → PyStr) (detect : Option (PyStr → Option PyStr))
    (l : PyStr) (ls : List PyStr) :
    processLines decode nfc detect (l :: ls) =
      if pyStrip l = [] then processLines decode nfc detect ls
      else
        match decode (pyStrip l) with
        | .error e => ([], some e)
        | .ok r =>
          (enrichRecord nfc detect r :: (processLines decode nfc detect ls).1,
            (processLines decode nfc detect ls).2) := by
  conv_lhs => unfold processLines

theorem claim_C6 (decode : PyStr → Except PyStr RawRecord)
    (nfc : PyStr → PyStr) (detect : Option (PyStr → Option PyStr))
    (pre : List PyStr) (bad : PyStr) (post : List PyStr) (e : PyStr)
    (hpre : (processLines decode nfc detect pre).2 = none)
    (hbadne : ¬ pyStrip bad = [])
    (hbad : decode (pyStrip bad) = .error e) :
    processLines decode nfc detect (pre ++ bad :: post) =
      ((processLines decode nfc detect pre).1, some e) := by
  induction pre with
  | nil =>
    simp only [List.nil_append]
    rw [processLines_cons, if_neg hbadne, hbad]
    rfl
  | cons l ls ih =>
    simp only [List.cons_append]
    rw [processLines_cons]
    by_cases ht : pyStrip l = []
    · rw [if_pos ht]
      have hR : (processLines decode nfc detect (l :: ls)).1 =
          (processLines decode nfc detect ls).1 := by
        rw [processLines_cons, if_pos ht]
      rw [hR]
      rw [processLines_cons, if_pos ht] at hpre
      exact ih hpre
    · rw [if_neg ht]
      rcases hd : decode (pyStrip l) with e1 | r
      · exfalso
        rw [processLines_cons, if_neg ht, hd] at hpre
        simp at hpre
      · dsimp only
        have hR : (processLines decode nfc detect (l :: ls)).1 =
            enrichRecord nfc detect r :: (processLines decode nfc detect ls).1 := by
          rw [processLines_cons, if_neg ht, hd]
        rw [hR]
        rw [processLines_cons, if_neg ht, hd] at hpre
        dsimp only at hpre
        rw [ih hpre]

/-- The decoder used by the C6 corpus: one specific line is malformed JSON,
every other line decodes to a record carrying the line as description. -/
def c6Decode : PyStr → Except PyStr RawRecord := fun s =>
  if s = pyS "bad json" then
    .error (pyS "Expecting value: line 1 column 1 (char 0)")
  else .ok { description := some s }

/-- C6 counterexample: a three-line corpus whose middle line is malformed.
The run stops at the malformed line: only one of the two well-formed
records is processed, and the error is fatal rather than recorded
per-record. -/
theorem claim_C6_counterexample :
    (processLines c6Decode pyId none
        [pyS "good line number one", pyS "bad json", pyS "good line number two"]).1.length = 1 ∧
    (processLines c6Decode pyId none
        [pyS "good line number one", pyS "bad json", pyS "good line number two"]).2 =
      some (pyS "Expecting value: line 1 column 1 (char 0)") := by
  refine ⟨by decide, by decide⟩

/-- C6 witness: the abort theorem applied to the concrete corpus. -/
theorem claim_C6_witness :
    processLines c6Decode pyId none
        ([pyS "first fine line"] ++ pyS "bad json" :: [pyS "last fine line"]) =
      ((processLines c6Decode pyId none [pyS "first fine line"]).1,
        some (pyS "Expecting value: line 1 column 1 (char 0)")) :=
  claim_C6 c6Decode pyId none [pyS "first fine line"] (pyS "bad json")
    [pyS "last fine line"] (pyS "Expecting value: line 1 column 1 (char 0)")
    (by decide) (by decide) (by rfl)

/-! ## Facts for claim C8 (duplicate-description detection) -/

/-- Group lookup in the `duplicates` accumulator (absent keys read back as
the empty group, matching `defaultdict(list)`). -/
def lookupG : List (PyStr × List PyStr) → PyStr → List PyStr
  | [], _ => []
  | (k1, vs) :: t, k => if k1 = k then vs else lookupG t k

/-- Appending a filename to key `k` extends exactly the group of `k`. -/
theorem lookupG_dupAppend_same (m : List (PyStr × List PyStr)) (k v : PyStr) :
    lookupG (dupAppend m k v) k = lookupG m k ++ [v] := by
  induction m with
  | nil => simp [dupAppend, lookupG]
  | cons p t ih =>
    rcases p with ⟨k1, vs⟩
    by_cases hk : k1 = k
    · simp [dupAppend, lookupG, hk]
    · simp [dupAppend, lookupG, hk, ih]

/-- Appending a filename to key `k` leaves every other group unchanged. -/
theorem lookupG_dupAppend_other (m : List (PyStr × List PyStr))
    (k k' v : PyStr) (hne : k' ≠ k) :
    lookupG (dupAppend m k v) k' = lookupG m k' := by
  induction m with
  | nil =>
    show (if k = k' then [v] else lookupG [] k') = lookupG [] k'
    rw [if_neg (fun h => hne h.symm)]
  | cons p t ih =>
    rcases p with ⟨k1, vs⟩
    by_cases hk : k1 = k
    · subst hk
      simp [dupAppend, lookupG, Ne.symm hne]
    · simp [dupAppend, lookupG, hk, ih]

/-- The first record of the corpus contributes the head of its groupʼs
member list (filtered-corpus reading, positive case). -/
theorem dupGroupSpec_cons_pos {r : AuditRec} {k : PyStr}
    (hd : normalizeTextA r.description ≠ [])
    (hk : normKey (normalizeTextA r.description) = k) (t : List AuditRec) :
    dupGroupSpec (r :: t) k = mfOf r :: dupGroupSpec t k := by
  unfold dupGroupSpec
  rw [List.filter_cons, if_pos (by simp [hd, hk]), List.map_cons]

/-- A record outside the group contributes nothing to it. -/
theorem dupGroupSpec_cons_neg {r : AuditRec} {k : PyStr}
    (h : ¬ (normalizeTextA r.description ≠ [] ∧
        normKey (normalizeTextA r.description) = k)) (t : List AuditRec) :
    dupGroupSpec (r :: t) k = dupGroupSpec t k := by
  unfold dupGroupSpec
  rw [List.filter_cons, if_neg (by simpa using h)]

/-- Loop invariant of the duplicate-collection pass: after folding the
corpus into an accumulator `m`, the group of `k` is its old content
followed by the filenames of the corpus records keyed `k`. -/
theorem buildDup_fold (rs : List AuditRec) (m : List (PyStr × List PyStr))
    (k : PyStr) :
    lookupG
        (rs.foldl
          (fun m r =>
            let d := normalizeTextA r.description
            if d ≠ [] then dupAppend m (normKey d) (mfOf r) else m)
          m) k =
      lookupG m k ++ dupGroupSpec rs k := by
  induction rs generalizing m with
  | nil => simp [dupGroupSpec]
  | cons r t ih =>
    rw [List.foldl_cons]
    dsimp only
    by_cases hd : normalizeTextA r.description ≠ []
    · by_cases hk : normKey (normalizeTextA r.description) = k
      · rw [if_pos hd, ih, hk, lookupG_dupAppend_same,
          dupGroupSpec_cons_pos hd hk, List.append_assoc]
        rfl
      · rw [if_pos hd, ih, lookupG_dupAppend_other _ _ _ _ (fun h => hk h.symm),
          dupGroupSpec_cons_neg (fun hcon => hk hcon.2)]
    · rw [if_neg hd, ih, dupGroupSpec_cons_neg (fun hcon => hd hcon.1)]

/-- The collected group of `k` is exactly the filenames of the records with
a non-empty description normalizing to `k`, in corpus order. -/
theorem buildDuplicates_lookup (rs : List AuditRec) (k : PyStr) :
    lookupG (buildDuplicates rs) k = dupGroupSpec rs k := by
  have h := buildDup_fold rs [] k
  simpa [buildDuplicates, lookupG] using h

/-- A non-empty group is present in the accumulator under its key. -/
theorem lookupG_mem {m : List (PyStr × List PyStr)} {k : PyStr}
    (h : lookupG m k ≠ []) : (k, lookupG m k) ∈ m := by
  induction m with
  | nil => exact absurd rfl h
  | cons p t ih =>
    rcases p with ⟨k1, vs⟩
    by_cases hk : k1 = k
    · subst hk
      have hv : lookupG ((k1, vs) :: t) k1 = vs := by simp [lookupG]
      rw [hv]
      exact List.mem_cons_self _ _
    · have hv : lookupG ((k1, vs) :: t) k = lookupG t k := by simp [lookupG, hk]
      rw [hv] at h ⊢
      exact List.mem_cons_of_mem _ (ih h)

/-- Soundness of the duplicate flags: every de-duplicated member of an
oversized group (non-empty key, more than one member) is flagged. -/
theorem dupFlagged_sound (rs : List AuditRec) (k : PyStr) (hk : k ≠ [])
    (hlen : 1 < (dupGroupSpec rs k).length) (f : PyStr)
    (hf : f ∈ dedupFS (dupGroupSpec rs k)) : f ∈ dupFlagged rs := by
  have hG := buildDuplicates_lookup rs k
  have hne : dupGroupSpec rs k ≠ [] := by
    intro hcon
    rw [hcon] at hlen
    simp at hlen
  have hmem : (k, dupGroupSpec rs k) ∈ buildDuplicates rs := by
    rw [← hG]
    exact lookupG_mem (by rw [hG]; exact hne)
  unfold dupFlagged
  rw [List.mem_flatten]
  refine ⟨dedupFS (dupGroupSpec rs k), ?_, hf⟩
  rw [List.mem_map]
  refine ⟨(k, dupGroupSpec rs k), hmem, ?_⟩
  dsimp only
  rw [if_pos ⟨hk, hlen⟩]

/-- C8 (confirmed): the auditor groups records by whitespace-normalized,
lower-cased description text; every member of a group with a non-empty key
and more than one member is flagged `duplicate_description` (filenames
de-duplicated in first-seen order), and on the three-record corpus with
descriptions `"A B"`, `"a   b"`, `"C D"` exactly the first two filenames
are flagged. -/
theorem claim_C8 :
    (∀ (rs : List AuditRec) (k : PyStr), k ≠ [] →
        1 < (dupGroupSpec rs k).length →
        ∀ f ∈ dedupFS (dupGroupSpec rs k), f ∈ dupFlagged rs) ∧
      dupFlagged
          [{ metadata_filename := some (pyS "f1"),
             description := some (pyS "A B") },
           { metadata_filename := some (pyS "f2"),
             description := some (pyS "a   b") },
           { metadata_filename := some (pyS "f3"),
             description := some (pyS "C D") }] =
        [pyS "f1", pyS "f2"] := by
  constructor
  · intro rs k hk hlen f hf
    exact dupFlagged_sound rs k hk hlen f hf
  · decide

/-- C8 witness: the soundness half applied at the two-record corpus whose
descriptions normalize to the common key `"a b"`. -/
theorem claim_C8_witness :
    pyS "f1" ∈ dupFlagged
      [{ metadata_filename := some (pyS "f1"),
         description := some (pyS "A B") },
       { metadata_filename := some (pyS "f2"),
         description := some (pyS "a   b") }] :=
  claim_C8.1
    [{ metadata_filename := some (pyS "f1"),
       description := some (pyS "A B") },
     { metadata_filename := some (pyS "f2"),
       description := some (pyS "a   b") }]
    (pyS "a b") (by decide) (by decide) (pyS "f1") (by decide)

/-! ## Facts for claim C10 (the description is never empty; all-empty
records synthesize the fallback sentence plus the filler) -/

/-- `clean_text(None) == ""`. -/
theorem cleanTextP_none (nfc : PyStr → PyStr) : cleanTextP nfc none = [] := rfl

/-- `clean_text("") == ""` (NFC fixes the empty string). -/
theorem cleanTextP_nil (nfc : PyStr → PyStr) (hnil : nfc [] = []) :
    cleanTextP nfc (some []) = [] := by
  show pyStrip (stripSansObjet (collapseWs ((nfc []).map replChar))) = []
  rw [hnil]
  decide

/-- On a record with no name, no description, no attributes and no portal
record, the synthesis step produces exactly the fallback sentence extended
by the filler, tagged `"synthetic"`. -/
theorem emptyRec_resolve (nfc : PyStr → PyStr) (hnil : nfc [] = [])
    (imgf rimgf creds : Option PyStr) :
    resolveDescription nfc
        { name := none, description := none, attributes := [],
          portal_record := none, image_filename := imgf,
          resolved_image_filename := rimgf, credits := creds } =
      (pyS "Photographie d'archive de Montréal." ++ syntheticFiller,
        pyS "synthetic", true) := by
  have hc := cleanTextP_nil nfc hnil
  have h0 : descStage0 nfc
      { name := none, description := none, attributes := [],
        portal_record := none, image_filename := imgf,
        resolved_image_filename := rimgf, credits := creds } =
      ([], pyS "missing") := by
    show mergeDescriptions nfc (some (cleanTextP nfc none)) (some []) = _
    rw [cleanTextP_none]
    unfold mergeDescriptions
    dsimp only
    rw [hc]
    decide
  have h1 : descStage1 nfc
      { name := none, description := none, attributes := [],
        portal_record := none, image_filename := imgf,
        resolved_image_filename := rimgf, credits := creds } =
      ([], pyS "missing") := by
    unfold descStage1
    rw [h0]
    dsimp only
    rw [if_neg (by simp)]
  have hrc : recCleanedOf nfc
      { name := none, description := none, attributes := [],
        portal_record := none, image_filename := imgf,
        resolved_image_filename := rimgf, credits := creds } =
      { name := some (cleanTextP nfc none), description := none,
        attributes := [], portal_record := some (cleanPortal nfc {}),
        image_filename := imgf, resolved_image_filename := rimgf,
        credits := creds } := rfl
  have hB : buildSyntheticDescription nfc
      (recCleanedOf nfc
        { name := none, description := none, attributes := [],
          portal_record := none, image_filename := imgf,
          resolved_image_filename := rimgf, credits := creds }) =
      pyS "Photographie d'archive de Montréal." ++ syntheticFiller := by
    rw [hrc, cleanTextP_none]
    unfold buildSyntheticDescription
    dsimp only [attrMapOf, List.foldl, lookupPairs, List.find?, Option.map,
      joinO, Option.getD, cleanPortal, cleanTextP]
    rw [hnil]
    decide
  unfold resolveDescription
  rw [h1]
  dsimp only
  rw [if_pos (Or.inl rfl), hB]

/-- C10 (confirmed): the enriched description is never the empty string,
and on a record whose name, description, attributes and portal record are
all empty or missing it is exactly the fallback sentence
"Photographie d'archive de Montréal." followed by the auto-generation
filler, hence at least 50 characters long. -/
theorem claim_C10 (nfc : PyStr → PyStr) (hnil : nfc [] = [])
    (detect : Option (PyStr → Option PyStr)) (rec : RawRecord) :
    (enrichRecord nfc detect rec).description ≠ [] ∧
      (allSourcesEmpty rec →
        (enrichRecord nfc detect rec).description =
            pyS "Photographie d'archive de Montréal." ++ syntheticFiller ∧
          50 ≤ (enrichRecord nfc detect rec).description.length) := by
  constructor
  · intro hcon
    have hlen := enrich_desc_len nfc detect rec
    rw [hcon] at hlen
    simp at hlen
  · intro h
    rcases rec with ⟨n, d, a, p, imgf, rimgf, creds⟩
    obtain ⟨h1, h2, h3, h4⟩ := h
    dsimp only at h1 h2 h3 h4
    subst h1
    subst h2
    subst h3
    subst h4
    have hd : (enrichRecord nfc detect
        { name := none, description := none, attributes := [],
          portal_record := none, image_filename := imgf,
          resolved_image_filename := rimgf, credits := creds }).description =
        pyS "Photographie d'archive de Montréal." ++ syntheticFiller := by
      rw [enrich_desc_eq, emptyRec_resolve nfc hnil imgf rimgf creds]
    exact ⟨hd, by rw [hd]; decide⟩

/-- C10 witness: the theorem applied at `nfc := id`, no detector, and the
fully empty record. -/
theorem claim_C10_witness :
    (enrichRecord pyId none {}).description ≠ [] ∧
      (allSourcesEmpty ({} : RawRecord) →
        (enrichRecord pyId none {}).description =
            pyS "Photographie d'archive de Montréal." ++ syntheticFiller ∧
          50 ≤ (enrichRecord pyId none {}).description.length) :=
  claim_C10 pyId rfl none {}
